import Mathlib

/-!
# MDL Molfile (V2000) codec — a shallow embedding

This file embeds the reader and the writer of
`src/Utils/Utils/IO/ChemicalFileFormats/MOLStreamHandler.cpp`
(`MOLStreamHandler::read` and `MOLStreamHandler::write`) in Lean and proves
the behavioural claims about them.

Modelling conventions:
* machine doubles are modelled by `ℚ` (exact arithmetic); iostream fixed-point
  output with 4 decimals is modelled by rounding to the nearest multiple of
  `10⁻⁴`;
* `std::istream` is modelled by `MolStream`: the list of its lines together
  with a flag telling whether the raw text ends in a newline.  Per the C++
  standard, `std::getline` sets `eofbit` when extraction is stopped by the end
  of the stream, i.e. exactly when the line read is the final line of a stream
  that does not end in a newline; the model reproduces that, because
  `MOLStreamHandler::read` tests `is.eof()` after the counts-line scan;
* `std::stoul(s, &pos, 10)` and `std::stod` are modelled on plain decimal
  notation (optional C-locale whitespace, optional sign, digits, and for
  `stod` an optional decimal point); the writer only ever produces that shape;
* exceptions become an `Except MolError` result;
  `FormattedStreamHandler::FormatMismatchException` is `MolError.formatMismatch`
  and the `std::logic_error` thrown for V3000 input is
  `MolError.unsupportedVersion`;
* components that the repository only declares (the element-symbol resolver of
  `ElementInfo.h`, `BondOrderCollection`, `Constants`) are modelled from the
  specification, each marked `Modelled from the spec:` in its doc comment.
-/

namespace MolV2000

/-! ## String primitives -/

/-- C++ `std::string::substr(pos, len)` (total model: truncates at the end). -/
def substr (s : String) (pos len : ℕ) : String := ⟨(s.data.drop pos).take len⟩

/-- C++ `std::string::substr(pos)` taking the whole tail. -/
def substrFrom (s : String) (pos : ℕ) : String := ⟨s.data.drop pos⟩

/-- The lambda `removeAllSpaces` of `MOLStreamHandler::read` (lines 200-204):
`std::remove`-erase of every `' '`. -/
def removeAllSpaces (s : String) : String := ⟨s.data.filter (fun c => c ≠ ' ')⟩

/-- `isspace` in the C locale. -/
def isCSpace (c : Char) : Bool :=
  c = ' ' || c = '\t' || c = '\n' || c = '\x0b' || c = '\x0c' || c = '\r'

/-- Numeric value of an ASCII digit. -/
def digitVal (c : Char) : Option ℕ :=
  if '0' ≤ c ∧ c ≤ '9' then some (c.toNat - 48) else none

/-- Skip leading C-locale whitespace, returning how many characters were
skipped and the remainder. -/
def skipSpaces : List Char → ℕ × List Char
  | [] => (0, [])
  | c :: cs =>
    if isCSpace c then
      let r := skipSpaces cs
      (r.1 + 1, r.2)
    else (0, c :: cs)

/-- Consume a maximal run of digits, folding them onto an accumulator.
Returns the accumulated value, the number of digits consumed, and the rest. -/
def takeDigits : List Char → ℕ → ℕ → ℕ × ℕ × List Char
  | [], acc, k => (acc, k, [])
  | c :: cs, acc, k =>
    match digitVal c with
    | some d => takeDigits cs (10 * acc + d) (k + 1)
    | none => (acc, k, c :: cs)

/-- Model of `std::stoul(s, &pos, 10)`: skip C whitespace, one optional sign,
then at least one digit (else `std::invalid_argument`, modelled as `none`);
a magnitude above `ULONG_MAX` raises `std::out_of_range` (also `none`); a
minus sign wraps the value modulo `2⁶⁴` as `strtoul` does.  Returns the value
and the number of characters consumed (C++ `pos`). -/
def stoulModel (l : List Char) : Option (ℕ × ℕ) :=
  let w := skipSpaces l
  let signed : Bool × ℕ × List Char :=
    match w.2 with
    | [] => (false, 0, [])
    | c :: cs =>
      if c = '-' then (true, 1, cs)
      else if c = '+' then (false, 1, cs)
      else (false, 0, c :: cs)
  let r := takeDigits signed.2.2 0 0
  if r.2.1 = 0 ∨ 2 ^ 64 ≤ r.1 then none
  else
    some (if signed.1 then (2 ^ 64 - r.1 % 2 ^ 64) % 2 ^ 64 else r.1,
      w.1 + signed.2.1 + r.2.1)

/-- The pattern `std::stoul(field, &convertedChars)` followed by the test
`convertedChars == 3`, applied throughout `MOLStreamHandler::read` to
3-character fields. -/
def parse3u (s : String) : Option ℕ :=
  match stoulModel s.data with
  | some vk => if vk.2 = 3 then some vk.1 else none
  | none => none

/-- The capitalization fix of read lines 300-303: first character to upper
case, every later character to lower case (`::toupper` / `::tolower`). -/
def normalizeSymbol : List Char → List Char
  | [] => []
  | c :: cs => c.toUpper :: cs.map Char.toLower

/-- Model of `std::stod` on plain decimal notation: skip C whitespace, one
optional sign, digits optionally containing one decimal point, at least one
digit overall (else `std::invalid_argument`, modelled as `none`).  Trailing
characters are ignored, as `MOLStreamHandler::read` never checks the consumed
length for doubles. -/
def stodModel (l : List Char) : Option ℚ :=
  let w := skipSpaces l
  let signed : ℚ × List Char :=
    match w.2 with
    | [] => (1, [])
    | c :: cs =>
      if c = '-' then (-1, cs)
      else if c = '+' then (1, cs)
      else (1, c :: cs)
  let ip := takeDigits signed.2 0 0
  let dotted : Bool × List Char :=
    match ip.2.2 with
    | [] => (false, [])
    | c :: cs => if c = '.' then (true, cs) else (false, c :: cs)
  if dotted.1 then
    let fp := takeDigits dotted.2 0 0
    if ip.2.1 + fp.2.1 = 0 then none
    else some (signed.1 * ((ip.1 : ℚ) + (fp.1 : ℚ) / 10 ^ fp.2.1))
  else if ip.2.1 = 0 then none
  else some (signed.1 * (ip.1 : ℚ))

/-! ## Formatting primitives (iostream) -/

/-- ASCII digit character for a value below 10. -/
def digitChar (d : ℕ) : Char := Char.ofNat (48 + d)

/-- Decimal digits of `n`, least significant first, with explicit fuel. -/
def natDigitsRev (fuel : ℕ) (n : ℕ) : List ℕ :=
  match fuel with
  | 0 => []
  | f + 1 => if n = 0 then [] else n % 10 :: natDigitsRev f (n / 10)

/-- Decimal rendering of an unsigned value, as `operator<<` prints it. -/
def natStr (n : ℕ) : String :=
  if n = 0 then "0" else ⟨((natDigitsRev n n).reverse).map digitChar⟩

/-- Pad a string on the left with `c` up to width `w` (no truncation). -/
def padLeft (c : Char) (w : ℕ) (s : String) : String :=
  ⟨List.replicate (w - s.length) c ++ s.data⟩

/-- `std::setw(w)` with the default right-justification and space fill. -/
def setwS (w : ℕ) (s : String) : String := padLeft ' ' w s

/-- `os << std::setw(w) << n` for an unsigned value. -/
def natW (w n : ℕ) : String := setwS w (natStr n)

/-- Rounding to the nearest integer (ties up); on the nonnegative range this
agrees with `std::round` (ties away from zero). -/
def roundQ (q : ℚ) : ℤ := ⌊q + 1 / 2⌋

/-- `os << std::setprecision(4) << std::fixed << v`: fixed-point rendering
with exactly four decimals of the value rounded to the nearest `10⁻⁴`. -/
def fmtFixed4 (q : ℚ) : String :=
  let n : ℤ := roundQ (q * 10000)
  (if n < 0 then "-" else "") ++ natStr (n.natAbs / 10000) ++ "." ++
    padLeft '0' 4 (natStr (n.natAbs % 10000))

/-- A 10-column fixed-point coordinate field of the atom block. -/
def f10 (q : ℚ) : String := setwS 10 (fmtFixed4 q)

/-! ## External collaborators, modelled from the spec -/

/-- Modelled from the spec: `Constants::angstrom_per_bohr`, the fixed
angstrom-per-bohr scale factor applied "exactly at the read/write boundary"
(spec §3); the repository's `Constants.h` is not part of the excerpt.  The
CODATA value 0.52917721067 angstrom per bohr. -/
def angstrom_per_bohr : ℚ := 52917721067 / 100000000000

/-- Modelled from the spec: `Constants::bohr_per_angstrom`, the "inverse of
the writer's factor" (spec §4.2 step 5). -/
def bohr_per_angstrom : ℚ := 1 / angstrom_per_bohr

/-- A 3D position, one `ℚ` per coordinate. -/
abbrev Pos3 : Type := ℚ × ℚ × ℚ

/-- Modelled from the spec: the external Element Symbol Resolver
(`ElementInfo::elementTypeForSymbol` / `ElementInfo::symbol`, whose
implementation is not part of the excerpt): a "bidirectional lookup between a
two-character-max chemical symbol and an element identity" (spec §2).
`resolve` returns `none` where `elementTypeForSymbol` throws
`ElementSymbolNotFound`; `defaultElem` is the value a default-initialized
atom of `AtomCollection(n)` carries. -/
structure MolResolver (E : Type) where
  symbol : E → String
  resolve : String → Option E
  defaultElem : E

/-- Modelled from the spec (§3): `BondOrderCollection`, a "symmetric mapping
from an unordered pair of atom indices to a continuous bond order";
"absence of an entry is equivalent to order 0". -/
structure BondOrderCollection where
  size : ℕ
  getOrder : ℕ → ℕ → ℚ

/-- A default-constructed (empty) `BondOrderCollection`. -/
def BondOrderCollection.empty : BondOrderCollection := ⟨0, fun _ _ => 0⟩

/-- `BondOrderCollection::resize(n)` on a fresh collection: an all-zero
square mapping of dimension `n`. -/
def BondOrderCollection.resize (_ : BondOrderCollection) (n : ℕ) :
    BondOrderCollection := ⟨n, fun _ _ => 0⟩

/-- `BondOrderCollection::setOrder(a, b, v)`: records `v` for the unordered
pair `(a, b)` (both orientations). -/
def BondOrderCollection.setOrder (c : BondOrderCollection) (a b : ℕ) (v : ℚ) :
    BondOrderCollection :=
  ⟨c.size, fun x y => if (x = a ∧ y = b) ∨ (x = b ∧ y = a) then v else c.getOrder x y⟩

/-- Symmetry of a caller-supplied bond-order collection (data-model
constraint, spec §3). -/
def BondOrderCollection.Symm (c : BondOrderCollection) : Prop :=
  ∀ i j, c.getOrder i j = c.getOrder j i

/-! ## Streams and errors -/

/-- A text input stream: its lines (without their `'\n'` terminators) and
whether the raw text ends in a newline.  `std::getline` on the final line of
a stream with `endsNL = false` extracts the line and sets `eofbit`. -/
structure MolStream where
  lines : List String
  endsNL : Bool

/-- `skipLine` of `MOLStreamHandler::read` (lines 206-209):
`is.ignore(max, '\n')` consumes one line. -/
def skipLine : MolStream → MolStream
  | ⟨[], nl⟩ => ⟨[], nl⟩
  | ⟨_ :: ls, nl⟩ => ⟨ls, nl⟩

/-- `std::getline` where the loop does not test the stream state: on an
exhausted stream the target string is left empty (C++11 clears it). -/
def getlineOrEmpty : MolStream → String × MolStream
  | ⟨[], nl⟩ => ("", ⟨[], nl⟩)
  | ⟨l :: ls, nl⟩ => (l, ⟨ls, nl⟩)

/-- The error conditions of the codec (spec §7).  The reader throws
`FormattedStreamHandler::FormatMismatchException` (`formatMismatch`) and
`std::logic_error` for V3000 input (`unsupportedVersion`); the public
dispatch throws `FormatUnsupportedException` (`formatUnsupported`). -/
inductive MolError where
  | formatMismatch
  | unsupportedVersion
  | formatUnsupported
deriving DecidableEq

/-! ## Writer (`MOLStreamHandler::write`, lines 74-188) -/

/-- The ascending enumeration of the strict upper-triangle index pairs
`0 ≤ i < j < n`, in the order of the writer's nested loops. -/
def pairList (n : ℕ) : List (ℕ × ℕ) :=
  (List.range n).flatMap fun i =>
    ((List.range n).filter fun j => decide (i < j)).map fun j => (i, j)

/-- The valence-counting band of write lines 88-94:
`0.5 <= order && order < 3.5`. -/
def inValenceBand (q : ℚ) : Bool := decide ((1 : ℚ) / 2 ≤ q) && decide (q < 7 / 2)

/-- `valences[i]` after the counting loop of write lines 84-96: the pair loop
bumps both endpoints of every pair whose order lies in the band, so entry `i`
holds the number of band pairs having `i` as an endpoint. -/
def writeValence (bo : BondOrderCollection) (n i : ℕ) : ℕ :=
  ((pairList n).filter fun p =>
    inValenceBand (bo.getOrder p.1 p.2) && decide (p.1 = i ∨ p.2 = i)).length

/-- The bond count `B` of write lines 98-102: half the sum of the valence
counters (each bond is counted from both endpoints); 0 when no bond data is
supplied. -/
def writeBondCount (bo? : Option BondOrderCollection) (n : ℕ) : ℕ :=
  match bo? with
  | some bo => (((List.range n).map fun i => writeValence bo n i).sum) / 2
  | none => 0

/-- The counts line of write lines 127-140: eleven 3-character fields (atom
count, bond count, eight zeros, 999) and the 6-character version tag. -/
def countsLine (n b : ℕ) (ver : String) : String :=
  natW 3 n ++ natW 3 b ++ natW 3 0 ++ natW 3 0 ++ natW 3 0 ++ natW 3 0 ++
  natW 3 0 ++ natW 3 0 ++ natW 3 0 ++ natW 3 0 ++ natW 3 999 ++ setwS 6 ver

/-- One atom line of write lines 143-162: three 10-column coordinate fields
in angstrom, a space, the 3-column element symbol, ten zero/valence integer
fields. -/
def mkAtomLine {E : Type} (R : MolResolver E) (e : E) (p : Pos3) (val : ℕ) : String :=
  f10 (p.1 * angstrom_per_bohr) ++ f10 (p.2.1 * angstrom_per_bohr) ++
  f10 (p.2.2 * angstrom_per_bohr) ++ " " ++ setwS 3 (R.symbol e) ++
  natW 2 0 ++ natW 3 0 ++ natW 3 0 ++ natW 3 0 ++ natW 3 0 ++ natW 3 val ++
  natW 3 0 ++ natW 3 0 ++ natW 3 0 ++ natW 3 0 ++ natW 3 0 ++ natW 3 0

/-- One bond line of write lines 173-180: two 1-based 3-column atom indices,
the 3-column bond type, four zero fields. -/
def mkBondLine (i j t : ℕ) : String :=
  natW 3 (1 + i) ++ natW 3 (1 + j) ++ natW 3 t ++ natW 3 0 ++ natW 3 0 ++
  natW 3 0 ++ natW 3 0

/-- The emission decision of write lines 170-181: discretize the order to the
nearest integer; emit a bond line exactly when the result lies strictly
between 0 and 4. -/
def bondLineFor (bo : BondOrderCollection) (p : ℕ × ℕ) : Option String :=
  let r := roundQ (bo.getOrder p.1 p.2)
  if 0 < r ∧ r < 4 then some (mkBondLine p.1 p.2 r.toNat) else none

/-- The bond block: the emitted lines, in pair-loop order. -/
def bondLinesOf (bo : BondOrderCollection) (n : ℕ) : List String :=
  (pairList n).filterMap (bondLineFor bo)

/-- `MOLStreamHandler::write` (lines 74-188) as the list of lines it emits.
`ts` stands for the `put_time` timestamp (10 characters `MMDDYYHHmm` in the
real program).  The final line `M END` is written without a newline. -/
def writeLines {E : Type} (R : MolResolver E) (atoms : List (E × Pos3))
    (bo? : Option BondOrderCollection) (formatVersion ts : String) : List String :=
  let n := atoms.length
  let valence : ℕ → ℕ := fun i =>
    match bo? with
    | some bo => writeValence bo n i
    | none => 0
  ["Unnamed Molecule",
   setwS 2 "##" ++ setwS 8 "SCINE" ++ ts ++ "3D",
   "",
   countsLine n (writeBondCount bo? n) formatVersion] ++
  (atoms.enum.map fun ia => mkAtomLine R ia.2.1 ia.2.2 (valence ia.1)) ++
  (match bo? with
   | some bo => bondLinesOf bo n
   | none => []) ++
  ["M END"]

/-- The stream produced by the writer; the last line `M END` carries no
trailing newline. -/
def writeStream {E : Type} (R : MolResolver E) (atoms : List (E × Pos3))
    (bo? : Option BondOrderCollection) (formatVersion ts : String) : MolStream :=
  ⟨writeLines R atoms bo? formatVersion ts, false⟩

/-! ## Reader (`MOLStreamHandler::read`, lines 190-365) -/

/-- The counts-line recovery scan of read lines 236-269: fetch lines until one
has at least 38 characters and both leading 3-character fields convert with
exactly 3 characters consumed; non-qualifying lines are consumed and skipped.
After the loop the code tests `is.eof()`: it is set both when the stream ran
out before a qualifying line, and when the accepted line was the final line
of a stream that does not end in a newline. -/
def findCountsLine : List String → Bool → Except MolError (ℕ × ℕ × String × MolStream)
  | [], _ => .error .formatMismatch
  | l :: ls, nl =>
    if l.length < 38 then findCountsLine ls nl
    else
      match parse3u (substr l 0 3) with
      | none => findCountsLine ls nl
      | some av =>
        match parse3u (substr l 3 3) with
        | none => findCountsLine ls nl
        | some bv =>
          if ls = [] ∧ nl = false then .error .formatMismatch
          else .ok (av % 2 ^ 32, bv % 2 ^ 32, l, ⟨ls, nl⟩)

/-- One atom line parse of read lines 281-316: length at least 34, three
10-column doubles, the element field `substr(31, 3)` stripped of spaces and
normalized to first-upper-rest-lower, resolved through the element-symbol
resolver; every failure is a `FormatMismatchException`.  Positions are scaled
by `bohr_per_angstrom`. -/
def parseAtomLine {E : Type} (R : MolResolver E) (line : String) :
    Except MolError (E × Pos3) :=
  if line.length < 34 then .error .formatMismatch
  else
    match stodModel (substr line 0 10).data, stodModel (substr line 10 10).data,
        stodModel (substr line 20 10).data with
    | some x, some y, some z =>
      let elementStr : String :=
        ⟨normalizeSymbol (removeAllSpaces (substr line 31 3)).data⟩
      match R.resolve elementStr with
      | some f =>
        .ok (f, (x * bohr_per_angstrom, y * bohr_per_angstrom, z * bohr_per_angstrom))
      | none => .error .formatMismatch
    | _, _, _ => .error .formatMismatch

/-- The atom block loop (read lines 281-316). -/
def parseAtomBlock {E : Type} (R : MolResolver E) :
    ℕ → MolStream → Except MolError (List (E × Pos3) × MolStream)
  | 0, s => .ok ([], s)
  | n + 1, s =>
    let g := getlineOrEmpty s
    match parseAtomLine R g.1 with
    | .ok a =>
      match parseAtomBlock R n g.2 with
      | .ok r => .ok (a :: r.1, r.2)
      | .error e => .error e
    | .error e => .error e

/-- The bond block loop (read lines 322-357): each line needs at least 9
characters and three exactly-3-character unsigned fields; the two atom
indices are converted from 1-based to 0-based by unsigned subtraction
(wrapping modulo `2³²`, no bounds check); a specifier strictly between 0 and
4 is recorded as the order, anything else is silently ignored. -/
def parseBondBlock :
    ℕ → MolStream → BondOrderCollection → Except MolError (BondOrderCollection × MolStream)
  | 0, s, c => .ok (c, s)
  | n + 1, s, c =>
    let g := getlineOrEmpty s
    if g.1.length < 9 then .error .formatMismatch
    else
      match parse3u (substr g.1 0 3), parse3u (substr g.1 3 3), parse3u (substr g.1 6 3) with
      | some av, some bv, some tv =>
        let a := (av % 2 ^ 32 + (2 ^ 32 - 1)) % 2 ^ 32
        let b := (bv % 2 ^ 32 + (2 ^ 32 - 1)) % 2 ^ 32
        let t : ℕ := tv % 2 ^ 32
        parseBondBlock n g.2 (if 0 < t ∧ t < 4 then c.setOrder a b (t : ℚ) else c)
      | _, _, _ => .error .formatMismatch

/-- `MOLStreamHandler::read` (lines 190-365): skip three header lines, run the
counts-line recovery scan, reject `V3000`, parse the atom block only under an
exact `V2000` tag (otherwise the atom collection keeps its `atomBlockSize`
default-initialized atoms), parse the bond block whenever the declared bond
count is positive. -/
def read {E : Type} (R : MolResolver E) (s0 : MolStream) :
    Except MolError (List (E × Pos3) × BondOrderCollection) :=
  let s := skipLine (skipLine (skipLine s0))
  match findCountsLine s.lines s.endsNL with
  | .error e => .error e
  | .ok r =>
    let atomBlockSize := r.1
    let bondBlockSize := r.2.1
    let line := r.2.2.1
    let s1 := r.2.2.2
    let versionString := removeAllSpaces (substrFrom line 33)
    if versionString = "V3000" then .error .unsupportedVersion
    else
      match (if versionString = "V2000" then parseAtomBlock R atomBlockSize s1
             else .ok (List.replicate atomBlockSize (R.defaultElem, ((0 : ℚ), (0 : ℚ), (0 : ℚ))), s1)) with
      | .error e => .error e
      | .ok ar =>
        match (if 0 < bondBlockSize then
                 parseBondBlock bondBlockSize ar.2 (BondOrderCollection.empty.resize atomBlockSize)
               else .ok (BondOrderCollection.empty, ar.2)) with
        | .error e => .error e
        | .ok br => .ok (ar.1, br.1)

/-! ## Derived notions used by the claims -/

/-- The acceptance test of the counts-line recovery scan, as one predicate:
at least 38 characters, and both leading 3-character fields parse as unsigned
integers consuming exactly 3 characters. -/
def qualifiesCounts (l : String) : Bool :=
  !(decide (l.length < 38)) && (parse3u (substr l 0 3)).isSome &&
    (parse3u (substr l 3 3)).isSome

/-- The version tag of a counts line: the text from index 33 on, with all
spaces removed (read lines 271). -/
def versionOf (l : String) : String := removeAllSpaces (substrFrom l 33)

/-- The atom count the reader extracts from a counts line (defined when the
line qualifies). -/
def atomCountOf (l : String) : ℕ := (parse3u (substr l 0 3)).getD 0 % 2 ^ 32

/-- The bond count the reader extracts from a counts line (defined when the
line qualifies). -/
def bondCountOf (l : String) : ℕ := (parse3u (substr l 3 3)).getD 0 % 2 ^ 32

/-- Modelled from the spec: interface properties of the element-symbol
resolver that the codec relies on.  Symbols are nonempty, at most two
characters (spec §2: "two-character-max chemical symbol"), contain no space
and no newline, are already in first-upper-rest-lower capitalization
(`ElementInfo.h`: "First character captitalized, other lower case"), and
`ElementInfo::symbol` / `ElementInfo::elementTypeForSymbol` are mutually
inverse ("bidirectional lookup"). -/
structure MolResolver.Lawful {E : Type} (R : MolResolver E) : Prop where
  resolve_symbol : ∀ e, R.resolve (R.symbol e) = some e
  symbol_len_pos : ∀ e, 1 ≤ (R.symbol e).length
  symbol_len_le : ∀ e, (R.symbol e).length ≤ 2
  symbol_clean : ∀ e, ∀ c ∈ (R.symbol e).data, c ≠ ' ' ∧ c ≠ '\n'
  symbol_norm : ∀ e, normalizeSymbol (R.symbol e).data = (R.symbol e).data

/-! ## Helper functions for the correctness proofs -/

/-- Value of a digit list, least significant digit first. -/
def ofDigitsRev : List ℕ → ℕ
  | [] => 0
  | d :: ds => d + 10 * ofDigitsRev ds

/-- Value of a digit list, most significant digit first, onto an
accumulator. -/
def msdFold (a : ℕ) (ds : List ℕ) : ℕ := ds.foldl (fun x d => 10 * x + d) a

/-- The digit list (most significant first) underlying `natStr`. -/
def digitsList (n : ℕ) : List ℕ :=
  if n = 0 then [0] else (natDigitsRev n n).reverse

/-! ## Concrete instances for witnesses and counterexamples -/

/-- A two-element instance of the resolver interface, used to instantiate
the generic theorems on concrete inputs (`true` is carbon, `false` is
helium). -/
def RB : MolResolver Bool where
  symbol := fun b => if b then "C" else "He"
  resolve := fun s => if s = "C" then some true else if s = "He" then some false else none
  defaultElem := true

/-- A position whose first coordinate maps to exactly 0.000049 angstrom:
the 4-decimal atom-block field rounds it to 0.0000, so the reader recovers
0, an absolute error of 0.000049 / 0.52917721067 ≈ 9.26·10⁻⁵ bohr. -/
def xTol : ℚ := 4900000 / 52917721067

/-- A fixed 10-character timestamp for concrete write calls. -/
def ts0 : String := "0101990000"

/-- A valid counts line declaring 0 atoms, 0 bonds, V2000. -/
def cl00 : String := "  0  0  0  0  0  0  0  0  0  0999 V2000"

/-- A valid counts line declaring 0 atoms, 0 bonds, V3000. -/
def clV3 : String := "  0  0  0  0  0  0  0  0  0  0999 V3000"

/-- A bond-order collection carrying order 3.49999 between every pair. -/
def bo349 : BondOrderCollection := ⟨2, fun _ _ => 349999 / 100000⟩

/-- A bond-order collection carrying order exactly 3.5 between every pair. -/
def bo35 : BondOrderCollection := ⟨2, fun _ _ => 7 / 2⟩

/-- The value a coordinate (in atomic units) takes after one write/read
round trip: scaled to angstrom, rounded to the 4-decimal field, scaled
back. -/
def readbackCoord (t : ℚ) : ℚ :=
  ((roundQ (t * angstrom_per_bohr * 10000) : ℚ) / 10000) * bohr_per_angstrom

/-- The all-zero bond-order collection of dimension 1. -/
def boZero : BondOrderCollection := ⟨1, fun _ _ => 0⟩

/-- `readbackCoord` applied to all three coordinates of a position. -/
def readback (p : Pos3) : Pos3 :=
  (readbackCoord p.1, readbackCoord p.2.1, readbackCoord p.2.2)

/-- One enumerated atom paired with its written line and its read-back
value. -/
def atomPair {E : Type} (R : MolResolver E) (bo : BondOrderCollection) (n : ℕ)
    (ia : ℕ × (E × Pos3)) : String × (E × Pos3) :=
  (mkAtomLine R ia.2.1 ia.2.2 (writeValence bo n ia.1), (ia.2.1, readback ia.2.2))

/-- An emitted pair together with its written integer bond type. -/
def bondEntry (bo : BondOrderCollection) (p : ℕ × ℕ) : (ℕ × ℕ) × ℕ :=
  (p, (roundQ (bo.getOrder p.1 p.2)).toNat)

/-- The emission test of write lines 170-181 as a Boolean predicate. -/
def emitsBond (bo : BondOrderCollection) (p : ℕ × ℕ) : Bool :=
  decide (0 < roundQ (bo.getOrder p.1 p.2) ∧ roundQ (bo.getOrder p.1 p.2) < 4)

/-- An atom line whose element field holds the unresolvable symbol "Xq". -/
def badElemLine : String :=
  "    0.0000    0.0000    0.0000 Xq  0  0  0  0  0  0  0  0  0  0  0  0"

/-- A two-atom collection over the `RB` resolver. -/
def atoms2 : List (Bool × Pos3) := [(true, (1, 2, 3)), (false, (0, 0, 0))]

/-- A symmetric bond-order collection with order exactly 0.5 between atoms
0 and 1 (in the valence band) and 0.49999 elsewhere (below it). -/
def boHalf : BondOrderCollection :=
  ⟨2, fun i j => if (i = 0 ∧ j = 1) ∨ (i = 1 ∧ j = 0) then 1 / 2 else 49999 / 100000⟩

/-- A symmetric bond-order collection with order 1 between atoms 0 and 1. -/
def bo1 : BondOrderCollection :=
  ⟨2, fun i j => if (i = 0 ∧ j = 1) ∨ (i = 1 ∧ j = 0) then 1 else 0⟩


/-! # Theorems

## Decimal rendering and reparsing -/

theorem digitVal_digitChar {d : ℕ} (h : d < 10) : digitVal (digitChar d) = some d := by
  interval_cases d <;> rfl

theorem digitChar_not_space {d : ℕ} (h : d < 10) : isCSpace (digitChar d) = false := by
  interval_cases d <;> rfl

theorem digitChar_ne {d : ℕ} (h : d < 10) :
    digitChar d ≠ '-' ∧ digitChar d ≠ '+' ∧ digitChar d ≠ '.' ∧ digitChar d ≠ ' ' := by
  interval_cases d <;> refine ⟨by decide, by decide, by decide, by decide⟩

theorem natDigitsRev_lt_ten : ∀ f n d, d ∈ natDigitsRev f n → d < 10
  | 0, _, _, h => by simp [natDigitsRev] at h
  | f + 1, n, d, h => by
    by_cases h0 : n = 0
    · simp [natDigitsRev, h0] at h
    · simp only [natDigitsRev, h0, if_false, List.mem_cons] at h
      rcases h with h | h
      · omega
      · exact natDigitsRev_lt_ten f (n / 10) d h

theorem ofDigitsRev_natDigitsRev : ∀ f n, n < 10 ^ f → ofDigitsRev (natDigitsRev f n) = n
  | 0, n, h => by
    simp only [pow_zero, Nat.lt_one_iff] at h
    simp [natDigitsRev, ofDigitsRev, h]
  | f + 1, n, h => by
    by_cases h0 : n = 0
    · simp [natDigitsRev, h0, ofDigitsRev]
    · have hd : n / 10 < 10 ^ f := by
        rw [pow_succ] at h
        exact Nat.div_lt_of_lt_mul (by linarith)
      simp only [natDigitsRev, h0, if_false, ofDigitsRev,
        ofDigitsRev_natDigitsRev f (n / 10) hd]
      omega

theorem natDigitsRev_length_le : ∀ f n k, n < 10 ^ k → (natDigitsRev f n).length ≤ k
  | 0, _, _, _ => by simp [natDigitsRev]
  | f + 1, n, k, h => by
    by_cases h0 : n = 0
    · simp [natDigitsRev, h0]
    · cases k with
      | zero => simp only [pow_zero, Nat.lt_one_iff] at h; omega
      | succ k =>
        have hd : n / 10 < 10 ^ k := by
          rw [pow_succ] at h
          exact Nat.div_lt_of_lt_mul (by linarith)
        simpa [natDigitsRev, h0] using natDigitsRev_length_le f (n / 10) k hd

theorem natDigitsRev_ne_nil {n : ℕ} (h0 : n ≠ 0) : natDigitsRev n n ≠ [] := by
  cases n with
  | zero => omega
  | succ m => simp [natDigitsRev]

theorem digitsList_lt_ten {n d : ℕ} (h : d ∈ digitsList n) : d < 10 := by
  by_cases h0 : n = 0
  · simp [digitsList, h0] at h; omega
  · rw [digitsList, if_neg h0, List.mem_reverse] at h
    exact natDigitsRev_lt_ten n n d h

theorem digitsList_ne_nil (n : ℕ) : digitsList n ≠ [] := by
  by_cases h0 : n = 0
  · simp [digitsList, h0]
  · rw [digitsList, if_neg h0]
    simpa using natDigitsRev_ne_nil h0

theorem digitsList_length_le {n k : ℕ} (h : n < 10 ^ k) (hk : 1 ≤ k) :
    (digitsList n).length ≤ k := by
  by_cases h0 : n = 0
  · simpa [digitsList, h0] using hk
  · rw [digitsList, if_neg h0, List.length_reverse]
    exact natDigitsRev_length_le n n k h

theorem msdFold_reverse (a : ℕ) : ∀ l : List ℕ, msdFold a l.reverse = a * 10 ^ l.length + ofDigitsRev l
  | [] => by simp [msdFold, ofDigitsRev]
  | d :: ds => by
    rw [List.reverse_cons, msdFold, List.foldl_append]
    have h1 : msdFold a ds.reverse = a * 10 ^ ds.length + ofDigitsRev ds := msdFold_reverse a ds
    simp only [msdFold] at h1
    simp only [List.foldl_cons, List.foldl_nil, h1, ofDigitsRev, List.length_cons]
    ring

theorem msdFold_digitsList (n : ℕ) : msdFold 0 (digitsList n) = n := by
  by_cases h0 : n = 0
  · simp [digitsList, h0, msdFold]
  · rw [digitsList, if_neg h0, msdFold_reverse,
      ofDigitsRev_natDigitsRev n n (Nat.lt_pow_self (by norm_num) n)]
    simp

theorem natStr_data (n : ℕ) : (natStr n).data = (digitsList n).map digitChar := by
  by_cases h0 : n = 0
  · simp [natStr, digitsList, h0, digitChar]
  · rw [natStr, if_neg h0, digitsList, if_neg h0]

theorem natStr_length (n : ℕ) : (natStr n).length = (digitsList n).length := by
  show (natStr n).data.length = _
  rw [natStr_data, List.length_map]

theorem natStr_length_pos (n : ℕ) : 1 ≤ (natStr n).length := by
  rw [natStr_length]
  cases h : digitsList n with
  | nil => exact absurd h (digitsList_ne_nil n)
  | cons a l => simp

theorem natStr_length_le {n k : ℕ} (h : n < 10 ^ k) (hk : 1 ≤ k) :
    (natStr n).length ≤ k := by
  rw [natStr_length]
  exact digitsList_length_le h hk

theorem msdFold_cons (a d : ℕ) (ds : List ℕ) :
    msdFold a (d :: ds) = msdFold (10 * a + d) ds := rfl

theorem msdFold_zeros (a : ℕ) : ∀ z, msdFold 0 (List.replicate z 0) = 0
  | 0 => rfl
  | z + 1 => by
    rw [List.replicate_succ, msdFold_cons]
    simpa using msdFold_zeros a z

theorem msdFold_append (a : ℕ) (l1 l2 : List ℕ) :
    msdFold a (l1 ++ l2) = msdFold (msdFold a l1) l2 := List.foldl_append ..

theorem takeDigits_digits (ds : List ℕ) (hd : ∀ d ∈ ds, d < 10) (rest : List Char)
    (hrest : ∀ c, rest.head? = some c → digitVal c = none) :
    ∀ acc k, takeDigits (ds.map digitChar ++ rest) acc k = (msdFold acc ds, k + ds.length, rest) := by
  induction ds with
  | nil =>
    intro acc k
    cases rest with
    | nil => simp [takeDigits, msdFold]
    | cons c cs => simp [takeDigits, hrest c rfl, msdFold]
  | cons d ds ih =>
    intro acc k
    have hd0 : d < 10 := hd d (by simp)
    have ih2 := ih (fun x hx => hd x (by simp [hx])) (10 * acc + d) (k + 1)
    simp only [List.map_cons, List.cons_append, takeDigits, digitVal_digitChar hd0,
      ih2, msdFold_cons, List.length_cons, Prod.mk.injEq]
    rw [show k + (ds.length + 1) = k + 1 + ds.length by omega]
    exact ih2

theorem skipSpaces_pad (rest : List Char)
    (hrest : ∀ c, rest.head? = some c → isCSpace c = false) :
    ∀ w, skipSpaces (List.replicate w ' ' ++ rest) = (w, rest)
  | 0 => by
    cases rest with
    | nil => rfl
    | cons c cs => simp [skipSpaces, hrest c rfl]
  | w + 1 => by
    rw [List.replicate_succ, List.cons_append]
    simp [skipSpaces, isCSpace, skipSpaces_pad rest hrest w]

theorem stoulModel_pad (w n : ℕ) (hn : n < 2 ^ 64) :
    stoulModel (List.replicate w ' ' ++ (digitsList n).map digitChar) =
      some (n, w + (digitsList n).length) := by
  obtain ⟨d, ds, hds⟩ : ∃ d ds, digitsList n = d :: ds := by
    cases h : digitsList n with
    | nil => exact absurd h (digitsList_ne_nil n)
    | cons d ds => exact ⟨d, ds, rfl⟩
  have hd0 : d < 10 := digitsList_lt_ten (by rw [hds]; simp)
  have hwsp : skipSpaces (List.replicate w ' ' ++ (digitsList n).map digitChar) =
      (w, (digitsList n).map digitChar) := by
    refine skipSpaces_pad _ (fun c hc => ?_) w
    rw [hds] at hc
    simp only [List.map_cons, List.head?_cons, Option.some.injEq] at hc
    rw [← hc]
    exact digitChar_not_space hd0
  have htd : takeDigits ((digitsList n).map digitChar) 0 0 =
      (n, (digitsList n).length, []) := by
    have := takeDigits_digits (digitsList n) (fun x hx => digitsList_lt_ten hx) []
      (by intro c hc; simp at hc) 0 0
    rw [List.append_nil] at this
    rw [this, msdFold_digitsList]
    simp
  have h1 : (digitChar d = '-') = False := by
    simp [(digitChar_ne hd0).1]
  have h2 : (digitChar d = '+') = False := by
    simp [(digitChar_ne hd0).2.1]
  have hlen : (digitsList n).length ≠ 0 := by
    rw [hds]; simp
  rw [stoulModel, hwsp]
  rw [hds]
  simp only [List.map_cons, h1, h2, if_false]
  rw [← List.map_cons, ← hds, htd]
  simp only []
  rw [if_neg (by push_neg; exact ⟨hlen, by omega⟩)]
  simp

theorem parse3u_natW {n : ℕ} (h : n ≤ 999) : parse3u (natW 3 n) = some n := by
  have hlen : (natStr n).length ≤ 3 := natStr_length_le (by omega) (by omega)
  have hlen2 : (natStr n).length = (digitsList n).length := natStr_length n
  have hlen1 : 1 ≤ (natStr n).length := natStr_length_pos n
  have hdata : (natW 3 n).data =
      List.replicate (3 - (natStr n).length) ' ' ++ (digitsList n).map digitChar := by
    rw [natW, setwS, padLeft, ← natStr_data]
  have hst := stoulModel_pad (3 - (natStr n).length) n (by omega)
  have h3 : 3 - (natStr n).length + (digitsList n).length = 3 := by omega
  simp only [parse3u, hdata, hst]
  rw [if_pos h3]

theorem padLeft_length {c : Char} {w : ℕ} {s : String} (h : s.length ≤ w) :
    (padLeft c w s).length = w := by
  show (List.replicate (w - s.length) c ++ s.data).length = w
  rw [List.length_append, List.length_replicate]
  have hs : s.data.length = s.length := rfl
  omega

theorem setwS_length {w : ℕ} {s : String} (h : s.length ≤ w) : (setwS w s).length = w :=
  padLeft_length h

theorem natW3_length {n : ℕ} (h : n ≤ 999) : (natW 3 n).length = 3 :=
  setwS_length (natStr_length_le (by omega) (by omega))

theorem dash_data : ("-" : String).data = ['-'] := rfl

theorem dot_data : ("." : String).data = ['.'] := rfl

theorem nil_data : ("" : String).data = [] := rfl

theorem stodModel_fixed4 (w : ℕ) (m : ℤ) :
    stodModel (List.replicate w ' ' ++
      ((if m < 0 then "-" else "") ++ natStr (m.natAbs / 10000) ++ "." ++
        padLeft '0' 4 (natStr (m.natAbs % 10000))).data) = some ((m : ℚ) / 10000) := by
  set a := m.natAbs with ha
  set ip := a / 10000 with hip
  set fp := a % 10000 with hfp
  have hfp4 : fp < 10000 := Nat.mod_lt _ (by norm_num)
  set fracDs : List ℕ := List.replicate (4 - (natStr fp).length) 0 ++ digitsList fp with hfds
  have hfracChars : (padLeft '0' 4 (natStr fp)).data = fracDs.map digitChar := by
    show List.replicate (4 - (natStr fp).length) '0' ++ (natStr fp).data = _
    rw [natStr_data, hfds, List.map_append, List.map_replicate]
    rfl
  have hfrac_lt : ∀ d ∈ fracDs, d < 10 := by
    intro d hd
    rw [hfds, List.mem_append] at hd
    rcases hd with hd | hd
    · have := List.eq_of_mem_replicate hd
      omega
    · exact digitsList_lt_ten hd
  have hfrac_len : fracDs.length = 4 := by
    rw [hfds, List.length_append, List.length_replicate]
    have h1 : (digitsList fp).length ≤ 4 := digitsList_length_le (by omega) (by omega)
    have h2 : (natStr fp).length = (digitsList fp).length := natStr_length fp
    omega
  have hfrac_val : msdFold 0 fracDs = fp := by
    rw [hfds, msdFold_append, msdFold_zeros 0, msdFold_digitsList]
  have hint_parse : takeDigits ((digitsList ip).map digitChar ++ '.' :: fracDs.map digitChar) 0 0 =
      (ip, (digitsList ip).length, '.' :: fracDs.map digitChar) := by
    have h := takeDigits_digits (digitsList ip) (fun x hx => digitsList_lt_ten hx)
      ('.' :: fracDs.map digitChar) (by intro c hc; simp at hc; rw [← hc]; rfl) 0 0
    rw [h, msdFold_digitsList]
    simp
  have hfrac_parse : takeDigits (fracDs.map digitChar) 0 0 = (fp, 4, []) := by
    have h := takeDigits_digits fracDs hfrac_lt [] (by intro c hc; simp at hc) 0 0
    rw [List.append_nil] at h
    rw [h, hfrac_val]
    simp [hfrac_len]
  obtain ⟨d, ds, hds⟩ : ∃ d ds, digitsList ip = d :: ds := by
    cases h : digitsList ip with
    | nil => exact absurd h (digitsList_ne_nil ip)
    | cons d ds => exact ⟨d, ds, rfl⟩
  have hd0 : d < 10 := digitsList_lt_ten (by rw [hds]; simp)
  have hipLen : (digitsList ip).length ≠ 0 := by rw [hds]; simp
  have hc1 : (digitChar d = '-') = False := by simp [(digitChar_ne hd0).1]
  have hc2 : (digitChar d = '+') = False := by simp [(digitChar_ne hd0).2.1]
  have hkey : (10000 : ℚ) * (ip : ℚ) + (fp : ℚ) = (a : ℚ) := by
    rw [hip, hfp]
    exact_mod_cast congrArg (fun n : ℕ => (n : ℚ)) (Nat.div_add_mod a 10000)
  by_cases hm : m < 0
  · have habs : (a : ℚ) = -(m : ℚ) := by
      have hmQ : (m : ℚ) < 0 := by exact_mod_cast hm
      rw [ha, Int.cast_natAbs, Int.cast_abs, abs_of_neg hmQ]
    have hdata : ((if m < 0 then "-" else "") ++ natStr ip ++ "." ++
        padLeft '0' 4 (natStr fp)).data =
        '-' :: ((digitsList ip).map digitChar ++ '.' :: fracDs.map digitChar) := by
      rw [if_pos hm]
      simp only [String.data_append, hfracChars, natStr_data, dash_data, dot_data]
      simp
    rw [hdata]
    have hwsp := skipSpaces_pad
      ('-' :: ((digitsList ip).map digitChar ++ '.' :: fracDs.map digitChar))
      (by intro c hc; simp at hc; rw [← hc]; rfl) w
    simp only [stodModel, hwsp, if_true]
    rw [hint_parse]
    simp only [eq_self_iff_true, if_true, hfrac_parse]
    rw [if_neg (by omega)]
    congr 1
    rw [habs] at hkey
    field_simp
    linarith
  · have habs : (a : ℚ) = (m : ℚ) := by
      have hmQ : (0 : ℚ) ≤ (m : ℚ) := by exact_mod_cast not_lt.mp hm
      rw [ha, Int.cast_natAbs, Int.cast_abs, abs_of_nonneg hmQ]
    have hdata : ((if m < 0 then "-" else "") ++ natStr ip ++ "." ++
        padLeft '0' 4 (natStr fp)).data =
        (digitsList ip).map digitChar ++ '.' :: fracDs.map digitChar := by
      rw [if_neg hm]
      simp only [String.data_append, hfracChars, natStr_data, nil_data, dot_data]
      simp
    rw [hdata]
    have hwsp := skipSpaces_pad
      ((digitsList ip).map digitChar ++ '.' :: fracDs.map digitChar)
      (by
        intro c hc
        rw [hds] at hc
        simp only [List.map_cons, List.cons_append, List.head?_cons, Option.some.injEq] at hc
        rw [← hc]
        exact digitChar_not_space hd0) w
    simp only [stodModel, hwsp]
    rw [hds]
    simp only [List.map_cons, List.cons_append, hc1, hc2, if_false]
    rw [← List.cons_append, ← List.map_cons, ← hds, hint_parse]
    simp only [eq_self_iff_true, if_true, hfrac_parse]
    rw [if_neg (by omega)]
    congr 1
    rw [habs] at hkey
    field_simp
    linarith

theorem stodModel_f10 (q : ℚ) :
    stodModel (f10 q).data = some ((roundQ (q * 10000) : ℚ) / 10000) :=
  stodModel_fixed4 (10 - (fmtFixed4 q).length) (roundQ (q * 10000))

/-! ## Rounding -/

theorem roundQ_abs_le (x : ℚ) : |(roundQ x : ℚ) - x| ≤ 1 / 2 := by
  rw [roundQ]
  have h1 : (⌊x + 1 / 2⌋ : ℚ) ≤ x + 1 / 2 := Int.floor_le _
  have h2 : x + 1 / 2 - 1 < (⌊x + 1 / 2⌋ : ℚ) := Int.sub_one_lt_floor _
  rw [abs_le]
  constructor <;> linarith

theorem roundQ_pos_iff {q : ℚ} : 0 < roundQ q ↔ 1 / 2 ≤ q := by
  rw [roundQ, Int.lt_iff_add_one_le, zero_add, Int.le_floor]
  push_cast
  constructor <;> intro <;> linarith

theorem roundQ_lt_four_iff {q : ℚ} : roundQ q < 4 ↔ q < 7 / 2 := by
  rw [roundQ, Int.floor_lt]
  push_cast
  constructor <;> intro <;> linarith

theorem roundQ_eq_of_bounds {q : ℚ} {z : ℤ} (h1 : (z : ℚ) ≤ q + 1 / 2)
    (h2 : q + 1 / 2 < z + 1) : roundQ q = z := by
  rw [roundQ]
  exact Int.floor_eq_iff.mpr ⟨h1, by push_cast; linarith⟩

theorem inValenceBand_eq_emit (q : ℚ) :
    inValenceBand q = decide (0 < roundQ q ∧ roundQ q < 4) := by
  rw [inValenceBand, ← Bool.decide_and, decide_eq_decide]
  rw [roundQ_pos_iff, roundQ_lt_four_iff]

theorem roundQ_natAbs_lt {q : ℚ} (h : |q| ≤ 5292 * 10000) :
    (roundQ q).natAbs < 10 ^ 8 := by
  have h1 := roundQ_abs_le q
  have h2 : |(roundQ q : ℚ)| ≤ |q| + 1 / 2 := by
    have h3 := abs_add ((roundQ q : ℚ) - q) q
    simp only [sub_add_cancel] at h3
    linarith
  have h4 : ((roundQ q).natAbs : ℚ) < 10 ^ 8 := by
    rw [Int.cast_natAbs, Int.cast_abs]
    have : (5292 : ℚ) * 10000 + 1 / 2 < 10 ^ 8 := by norm_num
    linarith
  exact_mod_cast h4

theorem f10_length {q : ℚ} (h : (roundQ (q * 10000)).natAbs < 10 ^ 8) :
    (f10 q).length = 10 := by
  refine setwS_length ?_
  show ((if roundQ (q * 10000) < 0 then "-" else "") ++ natStr ((roundQ (q * 10000)).natAbs / 10000) ++ "." ++
    padLeft '0' 4 (natStr ((roundQ (q * 10000)).natAbs % 10000))).length ≤ 10
  have hip : (roundQ (q * 10000)).natAbs / 10000 < 10 ^ 4 := by omega
  have h1 : (natStr ((roundQ (q * 10000)).natAbs / 10000)).length ≤ 4 :=
    natStr_length_le hip (by omega)
  have h2 : (padLeft '0' 4 (natStr ((roundQ (q * 10000)).natAbs % 10000))).length = 4 :=
    padLeft_length (natStr_length_le (by omega) (by omega))
  have h3 : ((if roundQ (q * 10000) < 0 then "-" else "") : String).length ≤ 1 := by
    by_cases hc : roundQ (q * 10000) < 0
    · rw [if_pos hc]
      decide
    · rw [if_neg hc]
      decide
  have h4 : ("." : String).length = 1 := rfl
  simp only [String.length_append]
  omega

/-! ## The pair loop -/

theorem mem_pairList {n : ℕ} {p : ℕ × ℕ} : p ∈ pairList n ↔ p.1 < p.2 ∧ p.2 < n := by
  cases p with
  | mk i j =>
    simp only [pairList, List.mem_flatMap, List.mem_map, List.mem_filter, List.mem_range,
      decide_eq_true_eq, Prod.mk.injEq]
    constructor
    · rintro ⟨a, _, b, ⟨hb, hab⟩, heq1, heq2⟩
      simp only [← heq1, ← heq2]
      exact ⟨hab, hb⟩
    · rintro ⟨h1, h2⟩
      exact ⟨i, lt_trans h1 h2, j, ⟨h2, h1⟩, rfl, rfl⟩

theorem pairList_nodup (n : ℕ) : (pairList n).Nodup := by
  rw [pairList, List.nodup_flatMap]
  constructor
  · intro i _
    exact ((List.nodup_range n).filter _).map
      (fun a b h => by simpa using congrArg Prod.snd h)
  · refine (List.nodup_range n).pairwise_of_forall_ne ?_
    intro i hi j hj hij
    intro p hp hq
    simp only [List.mem_map, List.mem_filter] at hp hq
    obtain ⟨a, _, ha⟩ := hp
    obtain ⟨b, _, hb⟩ := hq
    have h1 : p.1 = i := by rw [← ha]
    have h2 : p.1 = j := by rw [← hb]
    omega

/-! ## Valence counting and the bond count -/

theorem sum_map_range_eq (n : ℕ) (f : ℕ → ℕ) :
    ((List.range n).map f).sum = ∑ i ∈ Finset.range n, f i := by
  induction n with
  | zero => rfl
  | succ n ih =>
    rw [List.range_succ, List.map_append, List.sum_append, Finset.sum_range_succ, ih]
    simp

theorem endpoint_count {n : ℕ} {p : ℕ × ℕ} (h1 : p.1 < p.2) (h2 : p.2 < n) :
    (∑ i ∈ Finset.range n, if p.1 = i ∨ p.2 = i then 1 else 0) = 2 := by
  rw [Finset.sum_boole]
  have hset : (Finset.range n).filter (fun i => p.1 = i ∨ p.2 = i) = {p.1, p.2} := by
    ext i
    simp only [Finset.mem_filter, Finset.mem_range, Finset.mem_insert, Finset.mem_singleton]
    omega
  rw [hset]
  simp [Finset.card_pair (by omega : p.1 ≠ p.2)]

theorem sum_filter_endpoint {n : ℕ} : ∀ L : List (ℕ × ℕ), (∀ p ∈ L, p.1 < p.2 ∧ p.2 < n) →
    (∑ i ∈ Finset.range n, (L.filter (fun p => decide (p.1 = i ∨ p.2 = i))).length) = 2 * L.length
  | [], _ => by simp
  | p :: L, h => by
    have hp := h p (by simp)
    have ih := sum_filter_endpoint L (fun q hq => h q (by simp [hq]))
    have hsplit : ∀ i, ((p :: L).filter (fun q => decide (q.1 = i ∨ q.2 = i))).length
        = (if p.1 = i ∨ p.2 = i then 1 else 0) +
          (L.filter (fun q => decide (q.1 = i ∨ q.2 = i))).length := by
      intro i
      rw [List.filter_cons]
      by_cases hc : p.1 = i ∨ p.2 = i
      · simp [hc]
        omega
      · simp [hc]
    simp only [hsplit]
    rw [Finset.sum_add_distrib, ih, endpoint_count hp.1 hp.2, List.length_cons]
    omega

theorem writeValence_filter (bo : BondOrderCollection) (n i : ℕ) :
    writeValence bo n i =
      (((pairList n).filter fun p => inValenceBand (bo.getOrder p.1 p.2)).filter
        (fun p => decide (p.1 = i ∨ p.2 = i))).length := by
  rw [writeValence, List.filter_filter]
  congr 1
  apply List.filter_congr
  intro p _
  rw [Bool.and_comm]

theorem writeBondCount_eq_bandPairs (bo : BondOrderCollection) (n : ℕ) :
    writeBondCount (some bo) n =
      ((pairList n).filter fun p => inValenceBand (bo.getOrder p.1 p.2)).length := by
  rw [writeBondCount]
  have hL : ∀ p ∈ (pairList n).filter fun p => inValenceBand (bo.getOrder p.1 p.2),
      p.1 < p.2 ∧ p.2 < n := by
    intro p hp
    exact mem_pairList.mp (List.mem_of_mem_filter hp)
  have hsum := sum_filter_endpoint _ hL
  have hval : ((List.range n).map fun i => writeValence bo n i).sum
      = ∑ i ∈ Finset.range n, (((pairList n).filter fun p =>
          inValenceBand (bo.getOrder p.1 p.2)).filter
            (fun p => decide (p.1 = i ∨ p.2 = i))).length := by
    rw [sum_map_range_eq]
    exact Finset.sum_congr rfl (fun i _ => writeValence_filter bo n i)
  rw [hval, hsum]
  omega

theorem filterMap_ite {α β : Type} (l : List α) (C : α → Prop) [DecidablePred C] (g : α → β) :
    (l.filterMap fun x => if C x then some (g x) else none) =
      (l.filter fun x => decide (C x)).map g := by
  induction l with
  | nil => rfl
  | cons a l ih =>
    by_cases hc : C a
    · simp [List.filterMap_cons, List.filter_cons, hc, ih]
    · simp [List.filterMap_cons, List.filter_cons, hc, ih]

theorem bondLinesOf_eq_map (bo : BondOrderCollection) (n : ℕ) :
    bondLinesOf bo n = ((pairList n).filter fun p =>
        decide (0 < roundQ (bo.getOrder p.1 p.2) ∧ roundQ (bo.getOrder p.1 p.2) < 4)).map
      (fun p => mkBondLine p.1 p.2 (roundQ (bo.getOrder p.1 p.2)).toNat) := by
  rw [bondLinesOf]
  exact filterMap_ite (pairList n) _ _

theorem band_filter_eq_emit_filter (bo : BondOrderCollection) (n : ℕ) :
    ((pairList n).filter fun p => inValenceBand (bo.getOrder p.1 p.2)) =
      ((pairList n).filter fun p =>
        decide (0 < roundQ (bo.getOrder p.1 p.2) ∧ roundQ (bo.getOrder p.1 p.2) < 4)) := by
  apply List.filter_congr
  intro p _
  exact inValenceBand_eq_emit _

theorem writeBondCount_eq_length_bondLines (bo : BondOrderCollection) (n : ℕ) :
    writeBondCount (some bo) n = (bondLinesOf bo n).length := by
  rw [writeBondCount_eq_bandPairs, bondLinesOf_eq_map, List.length_map,
    band_filter_eq_emit_filter]

theorem writeValence_count (bo : BondOrderCollection) (n i : ℕ) (hi : i < n)
    (hsym : bo.Symm) :
    writeValence bo n i =
      ((List.range n).filter fun j => decide (j ≠ i) && inValenceBand (bo.getOrder i j)).length := by
  have h1 : writeValence bo n i = (((pairList n).filter fun p =>
      inValenceBand (bo.getOrder p.1 p.2) && decide (p.1 = i ∨ p.2 = i)).toFinset).card := by
    rw [writeValence]
    exact (List.toFinset_card_of_nodup ((pairList_nodup n).filter _)).symm
  have h2 : ((List.range n).filter fun j =>
      decide (j ≠ i) && inValenceBand (bo.getOrder i j)).length
      = (((List.range n).filter fun j =>
          decide (j ≠ i) && inValenceBand (bo.getOrder i j)).toFinset).card :=
    (List.toFinset_card_of_nodup ((List.nodup_range n).filter _)).symm
  rw [h1, h2]
  apply Finset.card_bij' (fun p _ => if p.1 = i then p.2 else p.1)
    (fun j _ => (min i j, max i j))
  · intro p hp
    simp only [List.mem_toFinset, List.mem_filter, Bool.and_eq_true, decide_eq_true_eq,
      mem_pairList] at hp
    obtain ⟨⟨hlt, hn⟩, hband, hend⟩ := hp
    simp only [List.mem_toFinset, List.mem_filter, Bool.and_eq_true, decide_eq_true_eq,
      List.mem_range]
    by_cases hc : p.1 = i
    · rw [if_pos hc]
      refine ⟨hn, by omega, ?_⟩
      rw [← hc]
      exact hband
    · rw [if_neg hc]
      have hc2 : p.2 = i := by tauto
      refine ⟨by omega, by omega, ?_⟩
      rw [hsym i p.1, ← hc2]
      exact hband
  · intro j hj
    simp only [List.mem_toFinset, List.mem_filter, Bool.and_eq_true, decide_eq_true_eq,
      List.mem_range] at hj
    obtain ⟨hjn, hji, hband⟩ := hj
    simp only [List.mem_toFinset, List.mem_filter, Bool.and_eq_true, decide_eq_true_eq,
      mem_pairList]
    rcases lt_or_gt_of_ne (by omega : i ≠ j) with hlt | hlt
    · rw [min_eq_left (by omega : i ≤ j), max_eq_right (by omega : i ≤ j)]
      exact ⟨⟨hlt, hjn⟩, hband, Or.inl rfl⟩
    · rw [min_eq_right (by omega : j ≤ i), max_eq_left (by omega : j ≤ i)]
      refine ⟨⟨hlt, hi⟩, ?_, Or.inr rfl⟩
      rw [hsym j i]
      exact hband
  · intro p hp
    simp only [List.mem_toFinset, List.mem_filter, Bool.and_eq_true, decide_eq_true_eq,
      mem_pairList] at hp
    obtain ⟨⟨hlt, hn⟩, _, hend⟩ := hp
    by_cases hc : p.1 = i
    · rw [if_pos hc]
      rw [min_eq_left (by omega : i ≤ p.2), max_eq_right (by omega : i ≤ p.2)]
      rw [← hc]
    · have hc2 : p.2 = i := by tauto
      rw [if_neg hc]
      rw [min_eq_right (by omega : p.1 ≤ i), max_eq_left (by omega : p.1 ≤ i)]
      rw [← hc2]
  · intro j hj
    simp only [List.mem_toFinset, List.mem_filter, Bool.and_eq_true, decide_eq_true_eq,
      List.mem_range] at hj
    obtain ⟨hjn, hji, _⟩ := hj
    rcases lt_or_gt_of_ne (by omega : i ≠ j) with hlt | hlt
    · rw [min_eq_left (by omega : i ≤ j), max_eq_right (by omega : i ≤ j)]
      simp
    · rw [min_eq_right (by omega : j ≤ i), max_eq_left (by omega : j ≤ i)]
      simp
      omega


/-! ## Field extraction from constructed lines -/

theorem substr_eq_of_data {s t : String} {pos len : ℕ}
    (h : (s.data.drop pos).take len = t.data) : substr s pos len = t := by
  cases t with
  | mk d => exact congrArg String.mk h

theorem natW30_eval : natW 3 0 = "  0" := by decide

theorem natW3999_eval : natW 3 999 = "999" := by decide

theorem natW20_eval : natW 2 0 = " 0" := by decide

theorem data_length (s : String) : s.data.length = s.length := rfl

theorem countsLine_data (n b : ℕ) (ver : String) :
    (countsLine n b ver).data =
      (natW 3 n).data ++ ((natW 3 b).data ++ ("  0  0  0  0  0  0  0  0999".data ++
        (setwS 6 ver).data)) := by
  rw [countsLine]
  simp only [String.data_append, List.append_assoc, natW30_eval, natW3999_eval]
  rfl

theorem take_append_of_len {α : Type} {l1 l2 : List α} {k : ℕ} (h : l1.length = k) :
    (l1 ++ l2).take k = l1 := by
  rw [← h, List.take_left]

theorem drop_append_of_len {α : Type} {l1 l2 : List α} {k : ℕ} (h : l1.length = k) :
    (l1 ++ l2).drop k = l2 := by
  rw [← h, List.drop_left]

theorem counts_field1 {n b : ℕ} {ver : String} (hn : n ≤ 999) :
    substr (countsLine n b ver) 0 3 = natW 3 n := by
  apply substr_eq_of_data
  rw [countsLine_data, List.drop_zero]
  have h3 : ((natW 3 n).data).length = 3 := natW3_length hn
  exact take_append_of_len h3

theorem counts_field2 {n b : ℕ} {ver : String} (hn : n ≤ 999) (hb : b ≤ 999) :
    substr (countsLine n b ver) 3 3 = natW 3 b := by
  apply substr_eq_of_data
  rw [countsLine_data]
  have h3 : ((natW 3 n).data).length = 3 := natW3_length hn
  have h4 : ((natW 3 b).data).length = 3 := natW3_length hb
  rw [drop_append_of_len h3]
  exact take_append_of_len h4

theorem drop_append_plus {α : Type} {l1 l2 : List α} {k j : ℕ} (h : l1.length = k) :
    (l1 ++ l2).drop (k + j) = l2.drop j := by
  rw [← h, List.drop_append]

theorem counts_version {n b : ℕ} {ver : String} (hn : n ≤ 999) (hb : b ≤ 999) :
    (countsLine n b ver).data.drop 33 = (setwS 6 ver).data := by
  rw [countsLine_data]
  rw [show (33 : ℕ) = 3 + (3 + 27) by omega]
  have h3 : ((natW 3 n).data).length = 3 := natW3_length hn
  have h4 : ((natW 3 b).data).length = 3 := natW3_length hb
  have h3 : (natW 3 n).data.length = 3 := natW3_length hn
  have h4 : (natW 3 b).data.length = 3 := natW3_length hb
  rw [drop_append_plus h3, drop_append_plus h4]
  exact drop_append_of_len rfl

theorem counts_length {n b : ℕ} {ver : String} (hn : n ≤ 999) (hb : b ≤ 999)
    (hv : ver.length ≤ 6) : (countsLine n b ver).length = 39 := by
  show (countsLine n b ver).data.length = 39
  rw [countsLine_data]
  simp only [List.length_append]
  have h3 : (natW 3 n).data.length = 3 := natW3_length hn
  have h4 : (natW 3 b).data.length = 3 := natW3_length hb
  have h27 : ("  0  0  0  0  0  0  0  0999".data).length = 27 := rfl
  have h6 : (setwS 6 ver).data.length = 6 := setwS_length hv
  simp only [List.length_cons, List.length_nil] at h27 ⊢
  omega

theorem versionOf_countsLine {n b : ℕ} (hn : n ≤ 999) (hb : b ≤ 999) :
    versionOf (countsLine n b "V2000") = "V2000" := by
  rw [versionOf, substrFrom, counts_version hn hb]
  decide

/-! ## The counts-line recovery scan -/

theorem findCountsLine_skip {l : String} {ls : List String} {nl : Bool}
    (h : qualifiesCounts l = false) :
    findCountsLine (l :: ls) nl = findCountsLine ls nl := by
  rw [qualifiesCounts] at h
  rw [findCountsLine]
  by_cases h1 : l.length < 38
  · rw [if_pos h1]
  · rw [if_neg h1]
    cases h2 : parse3u (substr l 0 3) with
    | none => rfl
    | some av =>
      cases h3 : parse3u (substr l 3 3) with
      | none => rfl
      | some bv =>
        exfalso
        rw [h2, h3] at h
        simp [h1] at h

theorem findCountsLine_accept {l : String} {ls : List String} {nl : Bool} {av bv : ℕ}
    (h1 : parse3u (substr l 0 3) = some av) (h2 : parse3u (substr l 3 3) = some bv)
    (hlen : ¬ l.length < 38) :
    findCountsLine (l :: ls) nl =
      if ls = [] ∧ nl = false then .error .formatMismatch
      else .ok (av % 2 ^ 32, bv % 2 ^ 32, l, ⟨ls, nl⟩) := by
  rw [findCountsLine, if_neg hlen, h1, h2]

theorem findCountsLine_append_skip {pre : List String}
    (hpre : ∀ l ∈ pre, qualifiesCounts l = false) (rest : List String) (nl : Bool) :
    findCountsLine (pre ++ rest) nl = findCountsLine rest nl := by
  induction pre with
  | nil => rfl
  | cons l pre ih =>
    rw [List.cons_append, findCountsLine_skip (hpre l (by simp))]
    exact ih (fun q hq => hpre q (by simp [hq]))

theorem findCountsLine_error_of_all_skip {lines : List String}
    (h : ∀ l ∈ lines, qualifiesCounts l = false) (nl : Bool) :
    findCountsLine lines nl = .error .formatMismatch := by
  have h2 := findCountsLine_append_skip h [] nl
  rw [List.append_nil] at h2
  rw [h2]
  rfl

theorem qualifiesCounts_true_elim {l : String} (h : qualifiesCounts l = true) :
    ¬ l.length < 38 ∧ ∃ av bv, parse3u (substr l 0 3) = some av ∧
      parse3u (substr l 3 3) = some bv := by
  rw [qualifiesCounts] at h
  simp only [Bool.and_eq_true, Bool.not_eq_true', decide_eq_false_iff_not,
    Option.isSome_iff_exists] at h
  obtain ⟨⟨hl, ⟨av, hav⟩⟩, bv, hbv⟩ := h
  exact ⟨hl, av, bv, hav, hbv⟩


theorem findCountsLine_error_iff : ∀ (lines : List String) (nl : Bool),
    findCountsLine lines nl = .error .formatMismatch ↔
      ((∀ l ∈ lines, qualifiesCounts l = false) ∨
        (∃ pre l, lines = pre ++ [l] ∧ (∀ q ∈ pre, qualifiesCounts q = false) ∧
          qualifiesCounts l = true ∧ nl = false))
  | [], nl => by
    simp [findCountsLine]
  | l :: ls, nl => by
    by_cases hq : qualifiesCounts l = true
    · obtain ⟨hlen, av, bv, hav, hbv⟩ := qualifiesCounts_true_elim hq
      rw [findCountsLine_accept hav hbv hlen]
      by_cases hc : ls = [] ∧ nl = false
      · rw [if_pos hc]
        constructor
        · intro _
          right
          exact ⟨[], l, by simp [hc.1], by simp, hq, hc.2⟩
        · intro _
          rfl
      · rw [if_neg hc]
        constructor
        · intro h
          exact absurd h (by simp)
        · rintro (hall | ⟨pre, l2, heq, hpre, hql2, hnl⟩)
          · have := hall l (by simp)
            rw [hq] at this
            exact absurd this (by simp)
          · cases pre with
            | nil =>
              simp only [List.nil_append, List.cons.injEq] at heq
              exact absurd ⟨heq.2, hnl⟩ hc
            | cons p pre2 =>
              simp only [List.cons_append, List.cons.injEq] at heq
              have hp := hpre p (by simp)
              rw [← heq.1, hq] at hp
              exact absurd hp (by simp)
    · have hq2 : qualifiesCounts l = false := by
        simpa using hq
      rw [findCountsLine_skip hq2]
      rw [findCountsLine_error_iff ls nl]
      constructor
      · rintro (hall | ⟨pre, l2, heq, hpre, hql2, hnl⟩)
        · left
          intro q hqm
          rcases List.mem_cons.mp hqm with h | h
          · rw [h]
            exact hq2
          · exact hall q h
        · right
          refine ⟨l :: pre, l2, by simp [heq], ?_, hql2, hnl⟩
          intro q hqm
          rcases List.mem_cons.mp hqm with h | h
          · rw [h]
            exact hq2
          · exact hpre q h
      · rintro (hall | ⟨pre, l2, heq, hpre, hql2, hnl⟩)
        · left
          intro q hqm
          exact hall q (by simp [hqm])
        · cases pre with
          | nil =>
            simp only [List.nil_append, List.cons.injEq] at heq
            rw [← heq.1] at hql2
            rw [hql2] at hq2
            exact absurd hq2 (by simp)
          | cons p pre2 =>
            simp only [List.cons_append, List.cons.injEq] at heq
            right
            refine ⟨pre2, l2, heq.2, ?_, hql2, hnl⟩
            intro q hqm
            exact hpre q (by simp [hqm])

theorem read_error_of_scan {E : Type} (R : MolResolver E) (l1 l2 l3 : String)
    (lines : List String) (nl : Bool) (e : MolError)
    (h : findCountsLine lines nl = .error e) :
    read R ⟨l1 :: l2 :: l3 :: lines, nl⟩ = .error e := by
  rw [read]
  simp only [skipLine, h]

theorem scan_error_of_read_error {E : Type} (R : MolResolver E) (l1 l2 l3 : String)
    (lines : List String) (nl : Bool)
    (h : ∀ res, findCountsLine lines nl ≠ .ok res) :
    ∃ e, findCountsLine lines nl = .error e ∧
      read R ⟨l1 :: l2 :: l3 :: lines, nl⟩ = .error e := by
  cases hf : findCountsLine lines nl with
  | error e => exact ⟨e, rfl, read_error_of_scan R l1 l2 l3 lines nl e hf⟩
  | ok res => exact absurd hf (h res)


theorem read_after_scan {E : Type} (R : MolResolver E) (l1 l2 l3 cl : String)
    (rest : List String) (nl : Bool) {av bv : ℕ}
    (hav : parse3u (substr cl 0 3) = some av) (hbv : parse3u (substr cl 3 3) = some bv)
    (hlen : ¬ cl.length < 38) (hcorner : ¬(rest = [] ∧ nl = false)) :
    read R ⟨l1 :: l2 :: l3 :: cl :: rest, nl⟩ =
      (if versionOf cl = "V3000" then .error .unsupportedVersion
       else
         match (if versionOf cl = "V2000" then parseAtomBlock R (av % 2 ^ 32) ⟨rest, nl⟩
                else .ok (List.replicate (av % 2 ^ 32)
                  (R.defaultElem, ((0 : ℚ), (0 : ℚ), (0 : ℚ))), ⟨rest, nl⟩)) with
         | .error e => .error e
         | .ok ar =>
           match (if 0 < bv % 2 ^ 32 then
                    parseBondBlock (bv % 2 ^ 32) ar.2
                      (BondOrderCollection.empty.resize (av % 2 ^ 32))
                  else .ok (BondOrderCollection.empty, ar.2)) with
           | .error e => .error e
           | .ok br => .ok (ar.1, br.1)) := by
  rw [read]
  simp only [skipLine]
  rw [findCountsLine_accept hav hbv hlen, if_neg hcorner]
  rfl


/-! ## The atom line -/

theorem mkAtomLine_data {E : Type} (R : MolResolver E) (e : E) (p : Pos3) (v : ℕ) :
    (mkAtomLine R e p v).data =
      (f10 (p.1 * angstrom_per_bohr)).data ++
      ((f10 (p.2.1 * angstrom_per_bohr)).data ++
      ((f10 (p.2.2 * angstrom_per_bohr)).data ++
      ((" " : String).data ++ ((setwS 3 (R.symbol e)).data ++
      ((" 0  0  0  0  0" : String).data ++ ((natW 3 v).data ++
       ("  0  0  0  0  0  0" : String).data)))))) := by
  rw [mkAtomLine]
  simp only [String.data_append, List.append_assoc, natW30_eval, natW20_eval]
  rfl

theorem atom_field1 {E : Type} (R : MolResolver E) (e : E) (p : Pos3) (v : ℕ)
    (hx : (f10 (p.1 * angstrom_per_bohr)).length = 10) :
    substr (mkAtomLine R e p v) 0 10 = f10 (p.1 * angstrom_per_bohr) := by
  apply substr_eq_of_data
  rw [mkAtomLine_data, List.drop_zero]
  have h1 : (f10 (p.1 * angstrom_per_bohr)).data.length = 10 := hx
  exact take_append_of_len h1

theorem atom_field2 {E : Type} (R : MolResolver E) (e : E) (p : Pos3) (v : ℕ)
    (hx : (f10 (p.1 * angstrom_per_bohr)).length = 10)
    (hy : (f10 (p.2.1 * angstrom_per_bohr)).length = 10) :
    substr (mkAtomLine R e p v) 10 10 = f10 (p.2.1 * angstrom_per_bohr) := by
  apply substr_eq_of_data
  rw [mkAtomLine_data]
  have h1 : (f10 (p.1 * angstrom_per_bohr)).data.length = 10 := hx
  have h2 : (f10 (p.2.1 * angstrom_per_bohr)).data.length = 10 := hy
  rw [drop_append_of_len h1]
  exact take_append_of_len h2

theorem atom_field3 {E : Type} (R : MolResolver E) (e : E) (p : Pos3) (v : ℕ)
    (hx : (f10 (p.1 * angstrom_per_bohr)).length = 10)
    (hy : (f10 (p.2.1 * angstrom_per_bohr)).length = 10)
    (hz : (f10 (p.2.2 * angstrom_per_bohr)).length = 10) :
    substr (mkAtomLine R e p v) 20 10 = f10 (p.2.2 * angstrom_per_bohr) := by
  apply substr_eq_of_data
  rw [mkAtomLine_data]
  have h1 : (f10 (p.1 * angstrom_per_bohr)).data.length = 10 := hx
  have h2 : (f10 (p.2.1 * angstrom_per_bohr)).data.length = 10 := hy
  have h3 : (f10 (p.2.2 * angstrom_per_bohr)).data.length = 10 := hz
  rw [show (20 : ℕ) = 10 + 10 from rfl, drop_append_plus h1, drop_append_of_len h2]
  exact take_append_of_len h3

theorem atom_symbol_field {E : Type} (R : MolResolver E) (e : E) (p : Pos3) (v : ℕ)
    (hx : (f10 (p.1 * angstrom_per_bohr)).length = 10)
    (hy : (f10 (p.2.1 * angstrom_per_bohr)).length = 10)
    (hz : (f10 (p.2.2 * angstrom_per_bohr)).length = 10)
    (hs : (setwS 3 (R.symbol e)).length = 3) :
    substr (mkAtomLine R e p v) 31 3 = setwS 3 (R.symbol e) := by
  apply substr_eq_of_data
  rw [mkAtomLine_data]
  have h1 : (f10 (p.1 * angstrom_per_bohr)).data.length = 10 := hx
  have h2 : (f10 (p.2.1 * angstrom_per_bohr)).data.length = 10 := hy
  have h3 : (f10 (p.2.2 * angstrom_per_bohr)).data.length = 10 := hz
  have h4 : ((" " : String).data).length = 1 := rfl
  have h5 : (setwS 3 (R.symbol e)).data.length = 3 := hs
  rw [show (31 : ℕ) = 10 + (10 + (10 + 1)) from rfl, drop_append_plus h1,
    drop_append_plus h2, drop_append_plus h3, drop_append_of_len h4]
  exact take_append_of_len h5

theorem mkAtomLine_length_ge {E : Type} (R : MolResolver E) (e : E) (p : Pos3) (v : ℕ)
    (hx : (f10 (p.1 * angstrom_per_bohr)).length = 10)
    (hy : (f10 (p.2.1 * angstrom_per_bohr)).length = 10)
    (hz : (f10 (p.2.2 * angstrom_per_bohr)).length = 10) :
    ¬ (mkAtomLine R e p v).length < 34 := by
  show ¬ (mkAtomLine R e p v).data.length < 34
  rw [mkAtomLine_data]
  simp only [List.length_append]
  have h1 : (f10 (p.1 * angstrom_per_bohr)).data.length = 10 := hx
  have h2 : (f10 (p.2.1 * angstrom_per_bohr)).data.length = 10 := hy
  have h3 : (f10 (p.2.2 * angstrom_per_bohr)).data.length = 10 := hz
  simp only [List.length_cons, List.length_nil]
  omega

theorem removeAllSpaces_setwS {s : String} (w : ℕ) (h : ∀ c ∈ s.data, c ≠ ' ') :
    removeAllSpaces (setwS w s) = s := by
  have hdata : (setwS w s).data = List.replicate (w - s.length) ' ' ++ s.data := rfl
  rw [removeAllSpaces, hdata, List.filter_append]
  have h1 : (List.replicate (w - s.length) ' ').filter (fun c => decide (c ≠ ' ')) = [] := by
    rw [List.filter_eq_nil]
    intro a ha
    simp [List.eq_of_mem_replicate ha]
  have h2 : s.data.filter (fun c => decide (c ≠ ' ')) = s.data := by
    rw [List.filter_eq_self]
    intro a ha
    simp [h a ha]
  rw [h1, h2, List.nil_append]

theorem parseAtomLine_mkAtomLine {E : Type} {R : MolResolver E} (hL : R.Lawful)
    (e : E) (p : Pos3) (v : ℕ)
    (hx : |p.1| ≤ 10000) (hy : |p.2.1| ≤ 10000) (hz : |p.2.2| ≤ 10000) :
    parseAtomLine R (mkAtomLine R e p v) =
      .ok (e, (readbackCoord p.1, readbackCoord p.2.1, readbackCoord p.2.2)) := by
  have hapb : (0 : ℚ) < angstrom_per_bohr := by rw [angstrom_per_bohr]; norm_num
  have habs : ∀ q : ℚ, |q| ≤ 10000 → |q * angstrom_per_bohr * 10000| ≤ 5292 * 10000 := by
    intro q hq
    rw [abs_mul, abs_mul, abs_of_pos hapb, show |(10000 : ℚ)| = 10000 by norm_num]
    have hm : |q| * angstrom_per_bohr ≤ 10000 * angstrom_per_bohr :=
      mul_le_mul_of_nonneg_right hq (le_of_lt hapb)
    have h2 : (10000 : ℚ) * angstrom_per_bohr ≤ 5292 := by rw [angstrom_per_bohr]; norm_num
    nlinarith [abs_nonneg q]
  have hfx : (f10 (p.1 * angstrom_per_bohr)).length = 10 :=
    f10_length (roundQ_natAbs_lt (habs _ hx))
  have hfy : (f10 (p.2.1 * angstrom_per_bohr)).length = 10 :=
    f10_length (roundQ_natAbs_lt (habs _ hy))
  have hfz : (f10 (p.2.2 * angstrom_per_bohr)).length = 10 :=
    f10_length (roundQ_natAbs_lt (habs _ hz))
  have hsl : (R.symbol e).length ≤ 3 := le_trans (hL.symbol_len_le e) (by norm_num)
  have hsw : (setwS 3 (R.symbol e)).length = 3 := setwS_length hsl
  rw [parseAtomLine, if_neg (mkAtomLine_length_ge R e p v hfx hfy hfz)]
  rw [atom_field1 R e p v hfx, atom_field2 R e p v hfx hfy, atom_field3 R e p v hfx hfy hfz,
    atom_symbol_field R e p v hfx hfy hfz hsw]
  rw [stodModel_f10, stodModel_f10, stodModel_f10]
  have hclean : ∀ c ∈ (R.symbol e).data, c ≠ ' ' := fun c hc => (hL.symbol_clean e c hc).1
  have hres : R.resolve ⟨normalizeSymbol (removeAllSpaces (setwS 3 (R.symbol e))).data⟩ =
      some e := by
    rw [removeAllSpaces_setwS 3 hclean, hL.symbol_norm e]
    exact hL.resolve_symbol e
  dsimp only
  rw [hres]
  rfl


/-! ## Bond lines -/

theorem mkBondLine_data (i j t : ℕ) :
    (mkBondLine i j t).data = (natW 3 (1 + i)).data ++ ((natW 3 (1 + j)).data ++
      ((natW 3 t).data ++ "  0  0  0  0".data)) := by
  rw [mkBondLine]
  simp only [String.data_append, List.append_assoc, natW30_eval]
  rfl

theorem bond_field1 {i j t : ℕ} (hi : 1 + i ≤ 999) :
    substr (mkBondLine i j t) 0 3 = natW 3 (1 + i) := by
  apply substr_eq_of_data
  rw [mkBondLine_data, List.drop_zero]
  have h3 : ((natW 3 (1 + i)).data).length = 3 := natW3_length hi
  exact take_append_of_len h3

theorem bond_field2 {i j t : ℕ} (hi : 1 + i ≤ 999) (hj : 1 + j ≤ 999) :
    substr (mkBondLine i j t) 3 3 = natW 3 (1 + j) := by
  apply substr_eq_of_data
  rw [mkBondLine_data]
  have h3 : ((natW 3 (1 + i)).data).length = 3 := natW3_length hi
  have h4 : ((natW 3 (1 + j)).data).length = 3 := natW3_length hj
  rw [drop_append_of_len h3]
  exact take_append_of_len h4

theorem bond_field3 {i j t : ℕ} (hi : 1 + i ≤ 999) (hj : 1 + j ≤ 999) (ht : t ≤ 999) :
    substr (mkBondLine i j t) 6 3 = natW 3 t := by
  apply substr_eq_of_data
  rw [mkBondLine_data]
  have h3 : ((natW 3 (1 + i)).data).length = 3 := natW3_length hi
  have h4 : ((natW 3 (1 + j)).data).length = 3 := natW3_length hj
  have h5 : ((natW 3 t).data).length = 3 := natW3_length ht
  rw [show (6 : ℕ) = 3 + 3 by omega, drop_append_plus h3, drop_append_of_len h4]
  exact take_append_of_len h5

theorem mkBondLine_length {i j t : ℕ} (hi : 1 + i ≤ 999) (hj : 1 + j ≤ 999)
    (ht : t ≤ 999) : (mkBondLine i j t).length = 21 := by
  show (mkBondLine i j t).data.length = 21
  rw [mkBondLine_data]
  simp only [List.length_append]
  have h3 : ((natW 3 (1 + i)).data).length = 3 := natW3_length hi
  have h4 : ((natW 3 (1 + j)).data).length = 3 := natW3_length hj
  have h5 : ((natW 3 t).data).length = 3 := natW3_length ht
  have h12 : ("  0  0  0  0".data).length = 12 := rfl
  simp only [List.length_cons, List.length_nil] at h12 ⊢
  omega

/-! ## Bond-order collection updates -/

theorem setOrder_get_self (c : BondOrderCollection) (a b : ℕ) (v : ℚ) :
    (c.setOrder a b v).getOrder a b = v := by
  rw [BondOrderCollection.setOrder]
  simp

theorem setOrder_get_ne (c : BondOrderCollection) (a b : ℕ) (v : ℚ) (x y : ℕ)
    (h : ¬((x = a ∧ y = b) ∨ (x = b ∧ y = a))) :
    (c.setOrder a b v).getOrder x y = c.getOrder x y := by
  rw [BondOrderCollection.setOrder]
  simp only
  rw [if_neg h]

theorem foldl_setOrder_get_notmem :
    ∀ (eps : List ((ℕ × ℕ) × ℕ)) (c : BondOrderCollection) (x y : ℕ),
    (∀ e ∈ eps, ¬((x = e.1.1 ∧ y = e.1.2) ∨ (x = e.1.2 ∧ y = e.1.1))) →
    (eps.foldl (fun acc e => acc.setOrder e.1.1 e.1.2 (e.2 : ℚ)) c).getOrder x y =
      c.getOrder x y
  | [], c, x, y, _ => rfl
  | f :: eps, c, x, y, h => by
    rw [List.foldl_cons]
    rw [foldl_setOrder_get_notmem eps _ x y (fun e he => h e (by simp [he]))]
    exact setOrder_get_ne c f.1.1 f.1.2 (f.2 : ℚ) x y (h f (by simp))

theorem foldl_setOrder_get_mem :
    ∀ (eps : List ((ℕ × ℕ) × ℕ)) (c : BondOrderCollection) (e : (ℕ × ℕ) × ℕ),
    e ∈ eps → (eps.map Prod.fst).Nodup → (∀ f ∈ eps, f.1.1 < f.1.2) →
    (eps.foldl (fun acc f => acc.setOrder f.1.1 f.1.2 (f.2 : ℚ)) c).getOrder e.1.1 e.1.2 =
      (e.2 : ℚ)
  | [], _, e, he, _, _ => absurd he (by simp)
  | f :: eps, c, e, he, hnd, hlt => by
    rw [List.foldl_cons]
    rcases List.mem_cons.mp he with he1 | he2
    · rw [he1]
      rw [foldl_setOrder_get_notmem eps _ f.1.1 f.1.2 ?_]
      · exact setOrder_get_self c f.1.1 f.1.2 (f.2 : ℚ)
      · intro g hg
        have hfg : f.1 ≠ g.1 := by
          intro hfg
          rw [List.map_cons, List.nodup_cons] at hnd
          exact hnd.1 (hfg ▸ List.mem_map_of_mem Prod.fst hg)
        have hflt := hlt f (by simp)
        have hglt := hlt g (by simp [hg])
        rintro (⟨h1, h2⟩ | ⟨h1, h2⟩)
        · exact hfg (Prod.ext h1 h2)
        · omega
    · rw [List.map_cons, List.nodup_cons] at hnd
      exact foldl_setOrder_get_mem eps _ e he2 hnd.2 (fun g hg => hlt g (by simp [hg]))

/-! ## Running the blocks on constructed lines -/

theorem parseAtomBlock_ok {E : Type} (R : MolResolver E) :
    ∀ (ps : List (String × (E × Pos3))),
    (∀ q ∈ ps, parseAtomLine R q.1 = .ok q.2) → ∀ (M : List String) (nl : Bool),
    parseAtomBlock R ps.length ⟨ps.map Prod.fst ++ M, nl⟩ = .ok (ps.map Prod.snd, ⟨M, nl⟩)
  | [], _, M, nl => rfl
  | q :: ps, h, M, nl => by
    have hq := h q (by simp)
    have ih := parseAtomBlock_ok R ps (fun r hr => h r (by simp [hr])) M nl
    show parseAtomBlock R (ps.length + 1) _ = _
    rw [parseAtomBlock]
    simp only [List.map_cons, List.cons_append, getlineOrEmpty]
    rw [hq, ih]

set_option maxHeartbeats 1600000 in
theorem parseBondBlock_step {i j t : ℕ} (hi : 1 + i ≤ 999) (hj : 1 + j ≤ 999)
    (ht1 : 0 < t) (ht2 : t < 4) (rest : List String) (nl : Bool) (n : ℕ)
    (c : BondOrderCollection) :
    parseBondBlock (n + 1) ⟨mkBondLine i j t :: rest, nl⟩ c =
      parseBondBlock n ⟨rest, nl⟩ (c.setOrder i j (t : ℚ)) := by
  have ht9 : t ≤ 999 := by omega
  have hlen : ¬ (mkBondLine i j t).length < 9 := by
    rw [mkBondLine_length hi hj ht9]
    omega
  have hf1 := bond_field1 (j := j) (t := t) hi
  have hf2 := bond_field2 (t := t) hi hj
  have hf3 := bond_field3 hi hj ht9
  have hp1 : parse3u (substr (mkBondLine i j t) 0 3) = some (1 + i) := by
    rw [hf1]
    exact parse3u_natW hi
  have hp2 : parse3u (substr (mkBondLine i j t) 3 3) = some (1 + j) := by
    rw [hf2]
    exact parse3u_natW hj
  have hp3 : parse3u (substr (mkBondLine i j t) 6 3) = some t := by
    rw [hf3]
    exact parse3u_natW ht9
  rw [parseBondBlock]
  simp only [getlineOrEmpty]
  rw [if_neg hlen, hp1, hp2, hp3]
  have ha : ((1 + i) % 2 ^ 32 + (2 ^ 32 - 1)) % 2 ^ 32 = i := by
    have h1 : (1 + i) % 2 ^ 32 = 1 + i := Nat.mod_eq_of_lt (by omega)
    rw [h1, show 1 + i + (2 ^ 32 - 1) = i + 2 ^ 32 by omega, Nat.add_mod_right]
    exact Nat.mod_eq_of_lt (by omega)
  have hb : ((1 + j) % 2 ^ 32 + (2 ^ 32 - 1)) % 2 ^ 32 = j := by
    have h1 : (1 + j) % 2 ^ 32 = 1 + j := Nat.mod_eq_of_lt (by omega)
    rw [h1, show 1 + j + (2 ^ 32 - 1) = j + 2 ^ 32 by omega, Nat.add_mod_right]
    exact Nat.mod_eq_of_lt (by omega)
  have htm : t % 2 ^ 32 = t := Nat.mod_eq_of_lt (by omega)
  simp only [ha, hb, htm]
  rw [if_pos ⟨ht1, ht2⟩]

theorem parseBondBlock_run {n : ℕ} (hn : n ≤ 999) :
    ∀ (eps : List ((ℕ × ℕ) × ℕ)),
    (∀ e ∈ eps, (e.1.1 < e.1.2 ∧ e.1.2 < n) ∧ 0 < e.2 ∧ e.2 < 4) →
    ∀ (M : List String) (nl : Bool) (c : BondOrderCollection),
    parseBondBlock eps.length ⟨eps.map (fun e => mkBondLine e.1.1 e.1.2 e.2) ++ M, nl⟩ c =
      .ok (eps.foldl (fun acc e => acc.setOrder e.1.1 e.1.2 (e.2 : ℚ)) c, ⟨M, nl⟩)
  | [], _, M, nl, c => rfl
  | e :: eps, h, M, nl, c => by
    obtain ⟨⟨hlt, hn2⟩, ht1, ht2⟩ := h e (by simp)
    have ih := parseBondBlock_run hn eps (fun f hf => h f (by simp [hf])) M nl
      (c.setOrder e.1.1 e.1.2 (e.2 : ℚ))
    show parseBondBlock (eps.length + 1) _ _ = _
    rw [List.map_cons, List.cons_append,
      parseBondBlock_step (by omega) (by omega) ht1 ht2 _ nl eps.length c, ih,
      List.foldl_cons]



/-! ## The write/read round trip -/

theorem readbackCoord_close (t : ℚ) :
    |readbackCoord t - t| ≤ bohr_per_angstrom / 20000 := by
  have hprod : angstrom_per_bohr * bohr_per_angstrom = 1 := by
    rw [bohr_per_angstrom, angstrom_per_bohr]
    norm_num
  have hbpa : (0 : ℚ) < bohr_per_angstrom := by
    rw [bohr_per_angstrom, angstrom_per_bohr]
    norm_num
  have h := roundQ_abs_le (t * angstrom_per_bohr * 10000)
  have key : readbackCoord t - t =
      ((roundQ (t * angstrom_per_bohr * 10000) : ℚ) - t * angstrom_per_bohr * 10000) *
        (bohr_per_angstrom / 10000) := by
    rw [readbackCoord]
    have ht : t * angstrom_per_bohr * 10000 * (bohr_per_angstrom / 10000) =
        t * (angstrom_per_bohr * bohr_per_angstrom) := by ring
    rw [sub_mul, ht, hprod, mul_one]
    ring
  rw [key, abs_mul, abs_of_pos (div_pos hbpa (by norm_num))]
  have h2 := mul_le_mul_of_nonneg_right h
    (le_of_lt (div_pos hbpa (by norm_num : (0 : ℚ) < 10000)))
  calc |(roundQ (t * angstrom_per_bohr * 10000) : ℚ) - t * angstrom_per_bohr * 10000| *
        (bohr_per_angstrom / 10000)
      ≤ 1 / 2 * (bohr_per_angstrom / 10000) := h2
    _ = bohr_per_angstrom / 20000 := by ring

set_option maxHeartbeats 2000000 in
theorem read_writeStream {E : Type} {R : MolResolver E} (hL : R.Lawful)
    (atoms : List (E × Pos3)) (bo : BondOrderCollection) (ts : String)
    (hn : atoms.length ≤ 999)
    (hB : writeBondCount (some bo) atoms.length ≤ 999)
    (hcoords : ∀ a ∈ atoms, |a.2.1| ≤ 10000 ∧ |a.2.2.1| ≤ 10000 ∧ |a.2.2.2| ≤ 10000) :
    ∃ boOut : BondOrderCollection,
      read R (writeStream R atoms (some bo) "V2000" ts) =
        .ok (atoms.map (fun a => (a.1, readback a.2)), boOut) ∧
      ∀ p ∈ pairList atoms.length,
        boOut.getOrder p.1 p.2 =
          if 0 < roundQ (bo.getOrder p.1 p.2) ∧ roundQ (bo.getOrder p.1 p.2) < 4
          then (roundQ (bo.getOrder p.1 p.2) : ℚ) else 0 := by
  have hs : writeStream R atoms (some bo) "V2000" ts =
      ⟨"Unnamed Molecule" :: (setwS 2 "##" ++ setwS 8 "SCINE" ++ ts ++ "3D") :: "" ::
       countsLine atoms.length (writeBondCount (some bo) atoms.length) "V2000" ::
       ((atoms.enum.map fun ia =>
          mkAtomLine R ia.2.1 ia.2.2 (writeValence bo atoms.length ia.1)) ++
        (bondLinesOf bo atoms.length ++ ["M END"])), false⟩ := by
    rw [writeStream]
    simp only [writeLines]
    simp only [List.append_assoc, List.cons_append, List.nil_append]
  have hmodn : atoms.length % 2 ^ 32 = atoms.length :=
    Nat.mod_eq_of_lt (lt_of_le_of_lt hn (by norm_num))
  have hmodB : writeBondCount (some bo) atoms.length % 2 ^ 32 =
      writeBondCount (some bo) atoms.length :=
    Nat.mod_eq_of_lt (lt_of_le_of_lt hB (by norm_num))
  have hav : parse3u (substr (countsLine atoms.length
      (writeBondCount (some bo) atoms.length) "V2000") 0 3) = some atoms.length := by
    rw [counts_field1 hn]
    exact parse3u_natW hn
  have hbv : parse3u (substr (countsLine atoms.length
      (writeBondCount (some bo) atoms.length) "V2000") 3 3) =
      some (writeBondCount (some bo) atoms.length) := by
    rw [counts_field2 hn hB]
    exact parse3u_natW hB
  have hcl39 : (countsLine atoms.length (writeBondCount (some bo) atoms.length)
      "V2000").length = 39 := counts_length hn hB (by decide)
  have hlen : ¬ (countsLine atoms.length (writeBondCount (some bo) atoms.length)
      "V2000").length < 38 := by omega
  have hver : versionOf (countsLine atoms.length (writeBondCount (some bo) atoms.length)
      "V2000") = "V2000" := versionOf_countsLine hn hB
  have hcorner : ¬(((atoms.enum.map fun ia =>
      mkAtomLine R ia.2.1 ia.2.2 (writeValence bo atoms.length ia.1)) ++
      (bondLinesOf bo atoms.length ++ ["M END"])) = [] ∧ false = false) := by
    rintro ⟨hr, -⟩
    simp at hr
  have hps_ok : ∀ q ∈ atoms.enum.map (atomPair R bo atoms.length),
      parseAtomLine R q.1 = .ok q.2 := by
    intro q hq
    rw [List.mem_map] at hq
    obtain ⟨ia, hia, rfl⟩ := hq
    have hmem : ia.2 ∈ atoms := by
      have h1 := List.mem_map_of_mem Prod.snd hia
      rwa [List.enum_map_snd] at h1
    obtain ⟨h1, h2, h3⟩ := hcoords ia.2 hmem
    exact parseAtomLine_mkAtomLine hL ia.2.1 ia.2.2 _ h1 h2 h3
  have hlen_ps : (atoms.enum.map (atomPair R bo atoms.length)).length = atoms.length := by
    rw [List.length_map, List.enum_length]
  have hfst_ps : (atoms.enum.map (atomPair R bo atoms.length)).map Prod.fst =
      atoms.enum.map fun ia =>
        mkAtomLine R ia.2.1 ia.2.2 (writeValence bo atoms.length ia.1) := by
    rw [List.map_map]
    rfl
  have hsnd_ps : (atoms.enum.map (atomPair R bo atoms.length)).map Prod.snd =
      atoms.map fun a => (a.1, readback a.2) := by
    rw [List.map_map]
    have h1 : (Prod.snd ∘ atomPair R bo atoms.length) =
        ((fun a : E × Pos3 => (a.1, readback a.2)) ∘ Prod.snd) := rfl
    rw [h1, ← List.map_map, List.enum_map_snd]
  have hatom := parseAtomBlock_ok R (atoms.enum.map (atomPair R bo atoms.length)) hps_ok
    (bondLinesOf bo atoms.length ++ ["M END"]) false
  rw [hlen_ps, hfst_ps, hsnd_ps] at hatom
  rcases Nat.eq_zero_or_pos (writeBondCount (some bo) atoms.length) with hB0 | hBpos
  · refine ⟨BondOrderCollection.empty, ?_, ?_⟩
    · rw [hs, read_after_scan R _ _ _ _ _ _ hav hbv hlen hcorner, hver,
        if_neg (by decide : ¬("V2000" : String) = "V3000"), if_pos rfl, hmodn, hmodB, hatom]
      dsimp only
      rw [hB0, if_neg (lt_irrefl 0)]
    · intro p hp
      have hnoemit : ¬(0 < roundQ (bo.getOrder p.1 p.2) ∧ roundQ (bo.getOrder p.1 p.2) < 4) := by
        intro hem
        have hpf : p ∈ (pairList atoms.length).filter (fun q =>
            decide (0 < roundQ (bo.getOrder q.1 q.2) ∧ roundQ (bo.getOrder q.1 q.2) < 4)) :=
          List.mem_filter.mpr ⟨hp, decide_eq_true hem⟩
        have hlines0 : (bondLinesOf bo atoms.length).length = 0 := by
          rw [← writeBondCount_eq_length_bondLines, hB0]
        rw [bondLinesOf_eq_map, List.length_map] at hlines0
        rw [List.length_eq_zero.mp hlines0] at hpf
        exact absurd hpf (List.not_mem_nil p)
      rw [if_neg hnoemit]
      rfl
  · have heps_len : (((pairList atoms.length).filter (emitsBond bo)).map (bondEntry bo)).length =
        writeBondCount (some bo) atoms.length := by
      rw [List.length_map, writeBondCount_eq_length_bondLines, bondLinesOf_eq_map,
        List.length_map]
      rfl
    have heps_lines : (((pairList atoms.length).filter (emitsBond bo)).map
        (bondEntry bo)).map (fun e => mkBondLine e.1.1 e.1.2 e.2) =
        bondLinesOf bo atoms.length := by
      rw [bondLinesOf_eq_map, List.map_map]
      rfl
    have heps_cond : ∀ e ∈ ((pairList atoms.length).filter (emitsBond bo)).map (bondEntry bo),
        (e.1.1 < e.1.2 ∧ e.1.2 < atoms.length) ∧ 0 < e.2 ∧ e.2 < 4 := by
      intro e he
      rw [List.mem_map] at he
      obtain ⟨p, hp, rfl⟩ := he
      rw [List.mem_filter] at hp
      have hpl := mem_pairList.mp hp.1
      have hem : 0 < roundQ (bo.getOrder p.1 p.2) ∧ roundQ (bo.getOrder p.1 p.2) < 4 := by
        have h2 := hp.2
        rw [emitsBond] at h2
        exact of_decide_eq_true h2
      simp only [bondEntry]
      exact ⟨hpl, by omega, by omega⟩
    have hbond := parseBondBlock_run hn
      (((pairList atoms.length).filter (emitsBond bo)).map (bondEntry bo)) heps_cond
      ["M END"] false (BondOrderCollection.empty.resize atoms.length)
    rw [heps_len, heps_lines] at hbond
    refine ⟨(((pairList atoms.length).filter (emitsBond bo)).map (bondEntry bo)).foldl
      (fun acc e => acc.setOrder e.1.1 e.1.2 (e.2 : ℚ))
      (BondOrderCollection.empty.resize atoms.length), ?_, ?_⟩
    · rw [hs, read_after_scan R _ _ _ _ _ _ hav hbv hlen hcorner, hver,
        if_neg (by decide : ¬("V2000" : String) = "V3000"), if_pos rfl, hmodn, hmodB, hatom]
      dsimp only
      rw [if_pos hBpos, hbond]
    · intro p hp
      have hplt := mem_pairList.mp hp
      have hnodup : ((((pairList atoms.length).filter (emitsBond bo)).map
          (bondEntry bo)).map Prod.fst).Nodup := by
        rw [List.map_map]
        exact ((pairList_nodup atoms.length).filter _).map (fun a b h => h)
      have hltall : ∀ f ∈ ((pairList atoms.length).filter (emitsBond bo)).map (bondEntry bo),
          f.1.1 < f.1.2 := fun f hf => ((heps_cond f hf).1).1
      by_cases hem : 0 < roundQ (bo.getOrder p.1 p.2) ∧ roundQ (bo.getOrder p.1 p.2) < 4
      · rw [if_pos hem]
        have hmem : bondEntry bo p ∈ ((pairList atoms.length).filter (emitsBond bo)).map
            (bondEntry bo) :=
          List.mem_map_of_mem _ (List.mem_filter.mpr ⟨hp, by
            rw [emitsBond]
            exact decide_eq_true hem⟩)
        have hgo := foldl_setOrder_get_mem _ (BondOrderCollection.empty.resize atoms.length)
          (bondEntry bo p) hmem hnodup hltall
        simp only [bondEntry] at hgo
        rw [hgo]
        have h2 : ((roundQ (bo.getOrder p.1 p.2)).toNat : ℤ) = roundQ (bo.getOrder p.1 p.2) :=
          Int.toNat_of_nonneg (le_of_lt hem.1)
        exact_mod_cast h2
      · rw [if_neg hem]
        have hnm : ∀ e ∈ ((pairList atoms.length).filter (emitsBond bo)).map (bondEntry bo),
            ¬((p.1 = e.1.1 ∧ p.2 = e.1.2) ∨ (p.1 = e.1.2 ∧ p.2 = e.1.1)) := by
          intro e he
          rw [List.mem_map] at he
          obtain ⟨q, hq, rfl⟩ := he
          rw [List.mem_filter] at hq
          have hql := mem_pairList.mp hq.1
          have hqe : 0 < roundQ (bo.getOrder q.1 q.2) ∧ roundQ (bo.getOrder q.1 q.2) < 4 := by
            have h2 := hq.2
            rw [emitsBond] at h2
            exact of_decide_eq_true h2
          simp only [bondEntry]
          rintro (⟨h1, h2⟩ | ⟨h1, h2⟩)
          · rw [Prod.ext h1 h2] at hem
            exact hem hqe
          · omega
        have hgo := foldl_setOrder_get_notmem _
          (BondOrderCollection.empty.resize atoms.length) p.1 p.2 hnm
        rw [hgo]
        rfl


/-! ## Claim theorems -/

/-- C4 (corrected).  The counts-line recovery scan: (a) after the three
discarded header lines, non-qualifying lines (shorter than 38 characters, or
with a leading 3-character field that does not convert consuming exactly 3
characters) are consumed and skipped, and the first qualifying line is
accepted with its two parsed fields — unless it is the final line of a
stream that does not end in a newline, in which case `is.eof()` is set and
read fails with Format-Mismatch even though the line was accepted; (b) the
scan phase fails with Format-Mismatch exactly when either no line qualifies
before end-of-stream, or the first qualifying line is that unterminated
final line; (c) a scan failure is the result of the whole read.  The claim's
"fails iff end-of-stream is reached before a line is accepted" is corrected
by the unterminated-final-line case (see the counterexample). -/
theorem mol_C4_amended {E : Type} (R : MolResolver E) (l1 l2 l3 : String)
    (lines : List String) (nl : Bool) :
    (∀ pre l rest, lines = pre ++ l :: rest →
      (∀ q ∈ pre, qualifiesCounts q = false) → qualifiesCounts l = true →
      (¬(rest = [] ∧ nl = false) →
        ∃ av bv, parse3u (substr l 0 3) = some av ∧ parse3u (substr l 3 3) = some bv ∧
          findCountsLine lines nl = .ok (av % 2 ^ 32, bv % 2 ^ 32, l, ⟨rest, nl⟩)) ∧
      ((rest = [] ∧ nl = false) → findCountsLine lines nl = .error .formatMismatch)) ∧
    (findCountsLine lines nl = .error .formatMismatch ↔
      ((∀ l ∈ lines, qualifiesCounts l = false) ∨
        ∃ pre l, lines = pre ++ [l] ∧ (∀ q ∈ pre, qualifiesCounts q = false) ∧
          qualifiesCounts l = true ∧ nl = false)) ∧
    (∀ e, findCountsLine lines nl = Except.error e →
      read R ⟨l1 :: l2 :: l3 :: lines, nl⟩ = Except.error e) := by
  refine ⟨?_, findCountsLine_error_iff lines nl,
    fun e he => read_error_of_scan R l1 l2 l3 lines nl e he⟩
  intro pre l rest heq hpre hql
  obtain ⟨hlen, av, bv, hav, hbv⟩ := qualifiesCounts_true_elim hql
  rw [heq, findCountsLine_append_skip hpre, findCountsLine_accept hav hbv hlen]
  constructor
  · intro hcorner
    rw [if_neg hcorner]
    exact ⟨av, bv, hav, hbv, rfl⟩
  · intro hcorner
    rw [if_pos hcorner]

theorem mol_C4_amended_witness :
    findCountsLine ["shrt", cl00, "x"] false =
      .ok (0 % 2 ^ 32, 0 % 2 ^ 32, cl00, ⟨["x"], false⟩) := by
  have h := (mol_C4_amended RB "a" "b" "c" ["shrt", cl00, "x"] false).1
    ["shrt"] cl00 ["x"] rfl (by decide) (by decide)
  obtain ⟨av, bv, hav, hbv, hol⟩ := h.1 (by decide)
  have hav0 : av = 0 := by
    have : parse3u (substr cl00 0 3) = some 0 := by decide
    rw [this] at hav
    injection hav with h2
    omega
  have hbv0 : bv = 0 := by
    have : parse3u (substr cl00 3 3) = some 0 := by decide
    rw [this] at hbv
    injection hbv with h2
    omega
  rw [hav0, hbv0] at hol
  exact hol

/-- C4 counterexample: a stream whose fourth line is a fully qualifying
counts line, but which does not end in a newline.  The line is accepted by
the scan (it qualifies), no further line is needed, yet read fails with
Format-Mismatch — refuting "read fails with Format-Mismatch if, and only
if, end-of-stream is reached before such a line is accepted". -/
theorem mol_C4_counterexample :
    qualifiesCounts cl00 = true ∧
    read RB ⟨["a", "b", "c", cl00], false⟩ = .error .formatMismatch :=
  ⟨by decide, rfl⟩

/-- C2 (corrected).  If the first qualifying counts line carries the version
tag "V3000" (after stripping spaces from index 33 on), read fails with the
Unsupported-Version error — a distinct error kind (`std::logic_error`,
modelled as `MolError.unsupportedVersion`, never equal to
`MolError.formatMismatch`) — and it does so whatever the remaining lines
contain, i.e. before any atom or bond line is parsed.  Corrected: this holds
provided the counts line is not the final line of a stream that does not end
in a newline; in that corner case the `is.eof()` test fires first and read
fails with Format-Mismatch instead (see the counterexample). -/
theorem mol_C2_amended {E : Type} (R : MolResolver E) (l1 l2 l3 cl : String)
    (rest : List String) (nl : Bool) (hq : qualifiesCounts cl = true)
    (hv : versionOf cl = "V3000") (hcorner : ¬(rest = [] ∧ nl = false)) :
    read R ⟨l1 :: l2 :: l3 :: cl :: rest, nl⟩ = .error .unsupportedVersion ∧
    MolError.unsupportedVersion ≠ MolError.formatMismatch := by
  obtain ⟨hlen, av, bv, hav, hbv⟩ := qualifiesCounts_true_elim hq
  rw [read_after_scan R l1 l2 l3 cl rest nl hav hbv hlen hcorner]
  rw [if_pos hv]
  exact ⟨rfl, by decide⟩

theorem mol_C2_amended_witness :
    read RB ⟨["a", "b", "c", clV3, "x"], false⟩ = .error .unsupportedVersion ∧
    MolError.unsupportedVersion ≠ MolError.formatMismatch :=
  mol_C2_amended RB "a" "b" "c" clV3 ["x"] false (by decide) (by decide) (by decide)

/-- C2 counterexample: the stream's first (and only) valid counts line
declares V3000, but it is the final line and the stream does not end in a
newline; read fails with Format-Mismatch, not with Unsupported-Version. -/
theorem mol_C2_counterexample :
    qualifiesCounts clV3 = true ∧ versionOf clV3 = "V3000" ∧
    read RB ⟨["a", "b", "c", clV3], false⟩ = .error .formatMismatch :=
  ⟨by decide, by decide, rfl⟩

/-- C3 (corrected).  For a qualifying counts line whose version tag is
neither "V2000" nor "V3000", the atom block is indeed not parsed: the atom
collection is returned with `atomCount` default-initialized atoms and no
line of the stream is consumed for atoms.  But the claim's "nor the bond
block" is wrong: whenever the declared bond count is positive, read still
parses the following lines as bond lines (recording every specifier strictly
between 0 and 4), exactly as in the V2000 case. -/
theorem mol_C3_amended {E : Type} (R : MolResolver E) (l1 l2 l3 cl : String)
    (rest : List String) (nl : Bool) (hq : qualifiesCounts cl = true)
    (hv2 : ¬ versionOf cl = "V2000") (hv3 : ¬ versionOf cl = "V3000")
    (hcorner : ¬(rest = [] ∧ nl = false)) :
    read R ⟨l1 :: l2 :: l3 :: cl :: rest, nl⟩ =
      (if 0 < bondCountOf cl then
        Except.map (fun br => (List.replicate (atomCountOf cl)
          (R.defaultElem, ((0 : ℚ), (0 : ℚ), (0 : ℚ))), br.1))
          (parseBondBlock (bondCountOf cl) ⟨rest, nl⟩
            (BondOrderCollection.empty.resize (atomCountOf cl)))
      else Except.ok (List.replicate (atomCountOf cl)
        (R.defaultElem, ((0 : ℚ), (0 : ℚ), (0 : ℚ))), BondOrderCollection.empty)) := by
  obtain ⟨hlen, av, bv, hav, hbv⟩ := qualifiesCounts_true_elim hq
  have hac : atomCountOf cl = av % 2 ^ 32 := by
    rw [atomCountOf, hav]
    rfl
  have hbc : bondCountOf cl = bv % 2 ^ 32 := by
    rw [bondCountOf, hbv]
    rfl
  rw [read_after_scan R l1 l2 l3 cl rest nl hav hbv hlen hcorner]
  rw [if_neg hv3, if_neg hv2, hac, hbc]
  dsimp only
  by_cases hbpos : 0 < bv % 2 ^ 32
  · rw [if_pos hbpos, if_pos hbpos]
    cases hpb : parseBondBlock (bv % 2 ^ 32) ⟨rest, nl⟩
        (BondOrderCollection.empty.resize (av % 2 ^ 32)) with
    | error e => rfl
    | ok br => rfl
  · rw [if_neg hbpos, if_neg hbpos]

set_option maxHeartbeats 2000000 in
theorem mol_C3_amended_witness :
    read RB ⟨["a", "b", "c", "  2  1  0  0  0  0  0  0  0  0999 V1999", "  1  2  1"], true⟩ =
      (if 0 < bondCountOf "  2  1  0  0  0  0  0  0  0  0999 V1999" then
        Except.map (fun br => (List.replicate
            (atomCountOf "  2  1  0  0  0  0  0  0  0  0999 V1999")
          (RB.defaultElem, ((0 : ℚ), (0 : ℚ), (0 : ℚ))), br.1))
          (parseBondBlock (bondCountOf "  2  1  0  0  0  0  0  0  0  0999 V1999")
            ⟨["  1  2  1"], true⟩
            (BondOrderCollection.empty.resize
              (atomCountOf "  2  1  0  0  0  0  0  0  0  0999 V1999")))
      else Except.ok (List.replicate (atomCountOf "  2  1  0  0  0  0  0  0  0  0999 V1999")
        (RB.defaultElem, ((0 : ℚ), (0 : ℚ), (0 : ℚ))), BondOrderCollection.empty)) :=
  mol_C3_amended RB "a" "b" "c" "  2  1  0  0  0  0  0  0  0  0999 V1999"
    ["  1  2  1"] true (by decide) (by decide) (by decide) (by decide)

/-- C3 counterexample: a counts line declaring version "V1999" (neither
V2000 nor V3000), 2 atoms and 1 bond, followed by one bond line.  Read
succeeds and the bond-order collection records order 1 for the pair (0, 1)
— refuting "no bond orders recorded"; the atom collection consists of
2 default-initialized atoms. -/
theorem mol_C3_counterexample :
    versionOf "  2  1  0  0  0  0  0  0  0  0999 V1999" = "V1999" ∧
    (read RB ⟨["a", "b", "c", "  2  1  0  0  0  0  0  0  0  0999 V1999",
        "  1  2  1"], true⟩).map
      (fun pr => (pr.1, pr.2.getOrder 0 1)) =
      .ok (List.replicate 2 (true, ((0 : ℚ), (0 : ℚ), (0 : ℚ))), (1 : ℚ)) :=
  ⟨by decide, rfl⟩

set_option maxHeartbeats 2000000 in
/-- C7 (confirmed).  Writing an empty atom collection — with or without a
bond-order collection — produces exactly the three header lines (name line,
program/timestamp line, blank comment line), a counts line declaring 0 atoms
and 0 bonds, and the terminator "M END"; no atom line and no bond line. -/
theorem mol_C7 {E : Type} (R : MolResolver E) (bo? : Option BondOrderCollection)
    (ts : String) :
    writeLines R [] bo? "V2000" ts =
      ["Unnamed Molecule", setwS 2 "##" ++ setwS 8 "SCINE" ++ ts ++ "3D", "",
        "  0  0  0  0  0  0  0  0  0  0999 V2000", "M END"] := by
  cases bo? with
  | none => rfl
  | some bo =>
    have hB : writeBondCount (some bo) 0 = 0 := by
      rw [writeBondCount]
      simp
    simp only [writeLines, List.length_nil, List.enum_nil, List.map_nil, hB]
    rw [show bondLinesOf bo 0 = [] from rfl]
    rfl

/-- C10 (confirmed).  A structurally valid stream whose single bond line
carries the 1-based atom index 0: read does not fail; the index is converted
by unsigned subtraction, wrapping to 2³² - 1 = 4294967295, and the order 1
is recorded at that index — far outside the collection's size 1 — instead
of any Format-Mismatch error. -/
theorem mol_C10 :
    (read RB ⟨["t1", "t2", "t3", "  1  1  0  0  0  0  0  0  0  0999 V2000",
        "    0.0000    0.0000    0.0000 C   0  0  0  0  0  0  0  0  0  0  0  0",
        "  0  1  1"], true⟩).map
      (fun pr => (pr.2.size, pr.2.getOrder 4294967295 0, pr.2.getOrder 0 4294967295)) =
      .ok (1, (1 : ℚ), (1 : ℚ)) ∧ (1 : ℕ) ≤ 4294967295 :=
  ⟨rfl, by omega⟩


/-- C5 (confirmed).  For a pair of the writer's pair loop with a nonnegative
order, the writer emits a bond line for the pair exactly when the order
rounded to the nearest integer lies in 1, 2, 3; and the emitted line's
3-character bond-type field (`substr(6, 3)`) carries exactly that rounded
integer.  In particular an order of exactly 3.5 rounds to 4 and produces no
line, while 3.49999 rounds to 3 and is emitted with type code 3 (see the
witness). -/
theorem mol_C5 (bo : BondOrderCollection) (n i j : ℕ) (hp : (i, j) ∈ pairList n)
    (hn : n ≤ 999) (h0 : 0 ≤ bo.getOrder i j) :
    ((∃ l, bondLineFor bo (i, j) = some l) ↔
      roundQ (bo.getOrder i j) ∈ ({1, 2, 3} : Set ℤ)) ∧
    (∀ l, bondLineFor bo (i, j) = some l →
      l ∈ bondLinesOf bo n ∧
      parse3u (substr l 6 3) = some (roundQ (bo.getOrder i j)).toNat ∧
      ((roundQ (bo.getOrder i j)).toNat : ℤ) = roundQ (bo.getOrder i j)) := by
  have hij := mem_pairList.mp hp
  have hb : bondLineFor bo (i, j) =
      (if 0 < roundQ (bo.getOrder i j) ∧ roundQ (bo.getOrder i j) < 4 then
        some (mkBondLine i j (roundQ (bo.getOrder i j)).toNat) else none) := rfl
  constructor
  · rw [hb]
    by_cases hc : 0 < roundQ (bo.getOrder i j) ∧ roundQ (bo.getOrder i j) < 4
    · rw [if_pos hc]
      simp only [Set.mem_insert_iff, Set.mem_singleton_iff]
      constructor
      · intro _
        omega
      · intro _
        exact ⟨_, rfl⟩
    · rw [if_neg hc]
      simp only [Set.mem_insert_iff, Set.mem_singleton_iff]
      constructor
      · rintro ⟨l, hl⟩
        exact absurd hl (by simp)
      · intro h
        omega
  · intro l hl
    rw [hb] at hl
    by_cases hc : 0 < roundQ (bo.getOrder i j) ∧ roundQ (bo.getOrder i j) < 4
    · rw [if_pos hc] at hl
      injection hl with hl
      have ht : (roundQ (bo.getOrder i j)).toNat ≤ 999 := by omega
      have hi9 : 1 + i ≤ 999 := by omega
      have hj9 : 1 + j ≤ 999 := by omega
      refine ⟨?_, ?_, by omega⟩
      · rw [bondLinesOf, List.mem_filterMap]
        refine ⟨(i, j), hp, ?_⟩
        rw [hb, if_pos hc, hl]
      · rw [← hl, bond_field3 hi9 hj9 ht]
        exact parse3u_natW ht
    · rw [if_neg hc] at hl
      exact absurd hl (by simp)

theorem mol_C5_witness :
    (∃ l, bondLineFor bo349 (0, 1) = some l ∧ parse3u (substr l 6 3) = some 3) ∧
    bondLineFor bo35 (0, 1) = none := by
  have hg349 : bo349.getOrder 0 1 = 349999 / 100000 := rfl
  have hg35 : bo35.getOrder 0 1 = 7 / 2 := rfl
  have hr349 : roundQ (bo349.getOrder 0 1) = 3 := by
    rw [hg349]
    exact roundQ_eq_of_bounds (by norm_num) (by norm_num)
  have hr35 : roundQ (bo35.getOrder 0 1) = 4 := by
    rw [hg35]
    exact roundQ_eq_of_bounds (by norm_num) (by norm_num)
  have h0349 : (0 : ℚ) ≤ bo349.getOrder 0 1 := by
    rw [hg349]
    norm_num
  have h035 : (0 : ℚ) ≤ bo35.getOrder 0 1 := by
    rw [hg35]
    norm_num
  constructor
  · obtain ⟨l, hl⟩ := (mol_C5 bo349 2 0 1 (by decide) (by omega) h0349).1.mpr
      (by rw [hr349]; simp)
    have h2 := (mol_C5 bo349 2 0 1 (by decide) (by omega) h0349).2 l hl
    refine ⟨l, hl, ?_⟩
    rw [h2.2.1, hr349]
    rfl
  · have h4 := (mol_C5 bo35 2 0 1 (by decide) (by omega) h035).1
    cases hl : bondLineFor bo35 (0, 1) with
    | none => rfl
    | some l =>
      have h5 := h4.mp ⟨l, hl⟩
      rw [hr35] at h5
      simp only [Set.mem_insert_iff, Set.mem_singleton_iff] at h5
      omega

/-- C6 (confirmed).  For a written molecule with bond data, the `i`-th atom
line of the output (line index `4 + i`: after the three header lines and the
counts line) is built with a valence field equal to `valences[i]`, and that
counter equals the number of atoms `j ≠ i` whose continuous order with `i`
lies in the band `0.5 ≤ o < 3.5` (an order of 0.49999 does not count, an
order of exactly 0.5 does — see the witness). -/
theorem mol_C6 {E : Type} (R : MolResolver E) (atoms : List (E × Pos3))
    (bo : BondOrderCollection) (ver ts : String) (i : ℕ) (hi : i < atoms.length)
    (hsym : bo.Symm) :
    ∃ a, atoms.get? i = some a ∧
      (writeLines R atoms (some bo) ver ts).get? (4 + i) =
        some (mkAtomLine R a.1 a.2 (writeValence bo atoms.length i)) ∧
      writeValence bo atoms.length i =
        ((List.range atoms.length).filter fun j =>
          decide (j ≠ i) && inValenceBand (bo.getOrder i j)).length := by
  obtain ⟨a, ha⟩ : ∃ a, atoms.get? i = some a := by
    cases h : atoms.get? i with
    | none =>
      rw [List.get?_eq_none] at h
      omega
    | some a => exact ⟨a, rfl⟩
  refine ⟨a, ha, ?_, writeValence_count bo atoms.length i hi hsym⟩
  have hw : writeLines R atoms (some bo) ver ts =
      ["Unnamed Molecule", setwS 2 "##" ++ setwS 8 "SCINE" ++ ts ++ "3D", "",
        countsLine atoms.length (writeBondCount (some bo) atoms.length) ver] ++
      ((atoms.enum.map fun ia =>
        mkAtomLine R ia.2.1 ia.2.2 (writeValence bo atoms.length ia.1)) ++
      (bondLinesOf bo atoms.length ++ ["M END"])) := by
    rw [writeLines]
    simp [List.append_assoc]
  rw [hw]
  have h4 : (["Unnamed Molecule", setwS 2 "##" ++ setwS 8 "SCINE" ++ ts ++ "3D", "",
      countsLine atoms.length (writeBondCount (some bo) atoms.length) ver] :
        List String).length = 4 := rfl
  rw [List.get?_append_right (by omega)]
  rw [h4, show 4 + i - 4 = i by omega]
  rw [List.get?_append (by
    rw [List.length_map, List.enum_length]
    omega)]
  rw [List.get?_map, List.get?_enum, ha]
  rfl

theorem mol_C6_witness :
    ∃ a, atoms2.get? 0 = some a ∧
      (writeLines RB atoms2 (some boHalf) "V2000" ts0).get? 4 =
        some (mkAtomLine RB a.1 a.2 (writeValence boHalf atoms2.length 0)) ∧
      writeValence boHalf atoms2.length 0 =
        ((List.range atoms2.length).filter fun j =>
          decide (j ≠ 0) && inValenceBand (boHalf.getOrder 0 j)).length :=
  mol_C6 RB atoms2 boHalf "V2000" ts0 0 (by decide)
    (by
      intro i j
      rw [boHalf]
      dsimp only
      by_cases h : (i = 0 ∧ j = 1) ∨ (i = 1 ∧ j = 0)
      · rw [if_pos h, if_pos (by tauto)]
      · rw [if_neg h, if_neg (by tauto)])

/-- C9 (confirmed).  The counts line written at line index 3 carries the bond
count `B` computed as half the sum of the per-atom valence counters (band
`0.5 ≤ o < 3.5`), and `B` equals the number of bond lines the writer emits
under the rounds-to-1-2-3 rule; when `B` and the atom count fit the
3-character field, reparsing the second field of the counts line returns
exactly `B`. -/
theorem mol_C9 {E : Type} (R : MolResolver E) (atoms : List (E × Pos3))
    (bo : BondOrderCollection) (ver ts : String)
    (h0 : ∀ p ∈ pairList atoms.length, 0 ≤ bo.getOrder p.1 p.2) :
    (writeLines R atoms (some bo) ver ts).get? 3 =
      some (countsLine atoms.length (writeBondCount (some bo) atoms.length) ver) ∧
    writeBondCount (some bo) atoms.length = (bondLinesOf bo atoms.length).length ∧
    (atoms.length ≤ 999 → writeBondCount (some bo) atoms.length ≤ 999 →
      parse3u (substr (countsLine atoms.length
        (writeBondCount (some bo) atoms.length) ver) 3 3) =
        some (writeBondCount (some bo) atoms.length)) := by
  refine ⟨rfl, writeBondCount_eq_length_bondLines bo atoms.length, ?_⟩
  intro hn hb
  rw [counts_field2 hn hb]
  exact parse3u_natW hb

theorem mol_C9_witness :
    (writeLines RB atoms2 (some bo1) "V2000" ts0).get? 3 =
      some (countsLine atoms2.length (writeBondCount (some bo1) atoms2.length) "V2000") ∧
    writeBondCount (some bo1) atoms2.length = (bondLinesOf bo1 atoms2.length).length ∧
    (atoms2.length ≤ 999 → writeBondCount (some bo1) atoms2.length ≤ 999 →
      parse3u (substr (countsLine atoms2.length
        (writeBondCount (some bo1) atoms2.length) "V2000") 3 3) =
        some (writeBondCount (some bo1) atoms2.length)) :=
  mol_C9 RB atoms2 bo1 "V2000" ts0
    (by
      intro p hp
      rw [bo1]
      dsimp only
      by_cases h : (p.1 = 0 ∧ p.2 = 1) ∨ (p.1 = 1 ∧ p.2 = 0)
      · rw [if_pos h]
        norm_num
      · rw [if_neg h])


/-! ## Atom-line failures -/

theorem parseAtomLine_err_of_resolve_none {E : Type} (R : MolResolver E) (line : String)
    (hres : R.resolve ⟨normalizeSymbol (removeAllSpaces (substr line 31 3)).data⟩ = none) :
    parseAtomLine R line = .error .formatMismatch := by
  rw [parseAtomLine]
  by_cases h1 : line.length < 34
  · rw [if_pos h1]
  · rw [if_neg h1]
    cases h2 : stodModel (substr line 0 10).data with
    | none => rfl
    | some x =>
      cases h3 : stodModel (substr line 10 10).data with
      | none => rfl
      | some y =>
        cases h4 : stodModel (substr line 20 10).data with
        | none => rfl
        | some z =>
          dsimp only
          rw [hres]

theorem parseAtomBlock_err {E : Type} (R : MolResolver E) : ∀ (gpre : List String),
    (∀ l ∈ gpre, ∃ a, parseAtomLine R l = Except.ok a) →
    ∀ (line : String) (rest : List String) (nl : Bool) (n : ℕ),
    parseAtomLine R line = .error .formatMismatch → gpre.length < n →
    parseAtomBlock R n ⟨gpre ++ line :: rest, nl⟩ = .error .formatMismatch
  | [], _, line, rest, nl, n, hline, hlen => by
    cases n with
    | zero => omega
    | succ n =>
      rw [parseAtomBlock]
      simp only [List.nil_append, getlineOrEmpty]
      rw [hline]
  | l :: gpre, hpre, line, rest, nl, n, hline, hlen => by
    cases n with
    | zero => omega
    | succ n =>
      obtain ⟨a, ha⟩ := hpre l (by simp)
      have ih := parseAtomBlock_err R gpre (fun q hq => hpre q (by simp [hq]))
        line rest nl n hline (by simpa using Nat.lt_of_succ_lt_succ hlen)
      rw [parseAtomBlock]
      simp only [List.cons_append, getlineOrEmpty]
      rw [ha, ih]

/-- C8 (confirmed).  If an atom line's 3-character element field
(`substr(31, 3)`), space-stripped and normalized to first-upper-rest-lower,
does not resolve through the element-symbol resolver, then that line's parse
fails with Format-Mismatch (the codec's own error kind — resolver failures
are caught and normalized, read lines 307-312); and the whole read aborts
with Format-Mismatch whenever such a line is reached inside the V2000 atom
block (all earlier atom lines parsing fine), whatever lines follow. -/
theorem mol_C8 {E : Type} (R : MolResolver E) (l1 l2 l3 cl : String)
    (gpre : List String) (line : String) (rest : List String) (nl : Bool)
    (hq : qualifiesCounts cl = true) (hver : versionOf cl = "V2000")
    (hpre : ∀ l ∈ gpre, ∃ a, parseAtomLine R l = Except.ok a)
    (hcount : gpre.length < atomCountOf cl)
    (hres : R.resolve ⟨normalizeSymbol (removeAllSpaces (substr line 31 3)).data⟩ = none) :
    parseAtomLine R line = .error .formatMismatch ∧
    read R ⟨l1 :: l2 :: l3 :: cl :: (gpre ++ line :: rest), nl⟩ =
      .error .formatMismatch := by
  have hline := parseAtomLine_err_of_resolve_none R line hres
  refine ⟨hline, ?_⟩
  obtain ⟨hlen, av, bv, hav, hbv⟩ := qualifiesCounts_true_elim hq
  have hac : atomCountOf cl = av % 2 ^ 32 := by
    rw [atomCountOf, hav]
    rfl
  have hcorner : ¬(gpre ++ line :: rest = [] ∧ nl = false) := by
    intro h
    exact absurd h.1 (by simp)
  rw [read_after_scan R l1 l2 l3 cl (gpre ++ line :: rest) nl hav hbv hlen hcorner]
  rw [if_neg (by rw [hver]; decide), if_pos hver]
  rw [parseAtomBlock_err R gpre hpre line rest nl (av % 2 ^ 32) hline (by omega)]

theorem mol_C8_witness :
    parseAtomLine RB badElemLine = .error .formatMismatch ∧
    read RB ⟨["a", "b", "c", "  1  0  0  0  0  0  0  0  0  0999 V2000",
      badElemLine], true⟩ = .error .formatMismatch := by
  have h := mol_C8 RB "a" "b" "c" "  1  0  0  0  0  0  0  0  0  0999 V2000"
    [] badElemLine [] true (by decide) (by decide) (by intro l hl; simp at hl)
    (by decide) (by decide)
  simpa using h


/-! ## Round-trip claim -/

theorem RB_lawful : RB.Lawful :=
  ⟨by decide, by decide, by decide, by decide, by decide⟩

/-- C1 (corrected).  Writing an atom collection (at most 999 atoms, modelled
coordinate magnitudes at most 10000 bohr) and a bond-order collection whose
written bond count fits the 3-character counts field, then reading the
produced text, reproduces the element sequence in order; every coordinate is
reproduced within `bohr_per_angstrom / 20000` (about 9.45·10⁻⁵ atomic units
— the claimed 5·10⁻⁵ bound is too small, see the counterexample); and each
pair's read-back bond order equals the nearest-integer rounding of the
original exactly when that integer is 1, 2 or 3, and is 0 (absent)
otherwise — also not literally "the same bond orders after rounding". -/
theorem mol_C1_amended {E : Type} {R : MolResolver E} (hL : R.Lawful)
    (atoms : List (E × Pos3)) (bo : BondOrderCollection) (ts : String)
    (hn : atoms.length ≤ 999)
    (hB : writeBondCount (some bo) atoms.length ≤ 999)
    (hcoords : ∀ a ∈ atoms, |a.2.1| ≤ 10000 ∧ |a.2.2.1| ≤ 10000 ∧ |a.2.2.2| ≤ 10000) :
    ∃ out, read R (writeStream R atoms (some bo) "V2000" ts) = .ok out ∧
      out.1.map Prod.fst = atoms.map Prod.fst ∧
      out.1.length = atoms.length ∧
      (∀ i (hi : i < atoms.length) (hi2 : i < out.1.length),
        |(out.1.get ⟨i, hi2⟩).2.1 - (atoms.get ⟨i, hi⟩).2.1| ≤ bohr_per_angstrom / 20000 ∧
        |(out.1.get ⟨i, hi2⟩).2.2.1 - (atoms.get ⟨i, hi⟩).2.2.1| ≤
          bohr_per_angstrom / 20000 ∧
        |(out.1.get ⟨i, hi2⟩).2.2.2 - (atoms.get ⟨i, hi⟩).2.2.2| ≤
          bohr_per_angstrom / 20000) ∧
      ∀ p ∈ pairList atoms.length,
        out.2.getOrder p.1 p.2 =
          if 0 < roundQ (bo.getOrder p.1 p.2) ∧ roundQ (bo.getOrder p.1 p.2) < 4
          then (roundQ (bo.getOrder p.1 p.2) : ℚ) else 0 := by
  obtain ⟨boOut, hread, hord⟩ := read_writeStream hL atoms bo ts hn hB hcoords
  refine ⟨_, hread, ?_, ?_, ?_, hord⟩
  · show (atoms.map fun a => (a.1, readback a.2)).map Prod.fst = atoms.map Prod.fst
    rw [List.map_map]
    rfl
  · show (atoms.map fun a => (a.1, readback a.2)).length = atoms.length
    rw [List.length_map]
  · intro i hi hi2
    have hi3 : i < (atoms.map fun a => (a.1, readback a.2)).length := hi2
    have hg : (atoms.map fun a => (a.1, readback a.2)).get ⟨i, hi3⟩ =
        ((atoms.get ⟨i, hi⟩).1, readback (atoms.get ⟨i, hi⟩).2) := by
      simp [List.get_eq_getElem, List.getElem_map]
    show |((atoms.map fun a => (a.1, readback a.2)).get ⟨i, hi3⟩).2.1 -
        (atoms.get ⟨i, hi⟩).2.1| ≤ bohr_per_angstrom / 20000 ∧
      |((atoms.map fun a => (a.1, readback a.2)).get ⟨i, hi3⟩).2.2.1 -
        (atoms.get ⟨i, hi⟩).2.2.1| ≤ bohr_per_angstrom / 20000 ∧
      |((atoms.map fun a => (a.1, readback a.2)).get ⟨i, hi3⟩).2.2.2 -
        (atoms.get ⟨i, hi⟩).2.2.2| ≤ bohr_per_angstrom / 20000
    rw [hg]
    exact ⟨readbackCoord_close _, readbackCoord_close _, readbackCoord_close _⟩

/-- C1 witness: the amended theorem applied to the empty molecule over the
concrete two-element resolver, with every hypothesis discharged. -/
theorem mol_C1_amended_witness :
    ∃ out, read RB (writeStream RB [] (some boZero) "V2000" ts0) = .ok out ∧
      out.1.map Prod.fst = ([] : List (Bool × Pos3)).map Prod.fst ∧
      out.1.length = ([] : List (Bool × Pos3)).length ∧
      (∀ i (hi : i < ([] : List (Bool × Pos3)).length) (hi2 : i < out.1.length),
        |(out.1.get ⟨i, hi2⟩).2.1 - (([] : List (Bool × Pos3)).get ⟨i, hi⟩).2.1| ≤
          bohr_per_angstrom / 20000 ∧
        |(out.1.get ⟨i, hi2⟩).2.2.1 - (([] : List (Bool × Pos3)).get ⟨i, hi⟩).2.2.1| ≤
          bohr_per_angstrom / 20000 ∧
        |(out.1.get ⟨i, hi2⟩).2.2.2 - (([] : List (Bool × Pos3)).get ⟨i, hi⟩).2.2.2| ≤
          bohr_per_angstrom / 20000) ∧
      ∀ p ∈ pairList ([] : List (Bool × Pos3)).length,
        out.2.getOrder p.1 p.2 =
          if 0 < roundQ (boZero.getOrder p.1 p.2) ∧ roundQ (boZero.getOrder p.1 p.2) < 4
          then (roundQ (boZero.getOrder p.1 p.2) : ℚ) else 0 :=
  mol_C1_amended RB_lawful [] boZero ts0 (by decide) (by decide) (by simp)

/-- C1 counterexample to the claimed 5·10⁻⁵ atomic-unit position tolerance:
a single atom at x = 4900000/52917721067 bohr (exactly 0.000049 angstrom,
all bond orders 0, so the data-model constraints hold).  The 4-decimal
coordinate field stores 0.0000, the reader recovers x = 0, and the error
|0 - x| ≈ 9.26·10⁻⁵ atomic units exceeds 5·10⁻⁵. -/
theorem mol_C1_counterexample :
    ∃ out, read RB (writeStream RB [(true, ((xTol : ℚ), (0 : ℚ), (0 : ℚ)))] (some boZero)
        "V2000" ts0) = .ok out ∧
      out.1.map Prod.fst = [true] ∧
      ∀ q ∈ out.1, ¬|q.2.1 - xTol| ≤ 5 / 100000 := by
  have hcoords : ∀ a ∈ ([(true, ((xTol : ℚ), (0 : ℚ), (0 : ℚ)))] : List (Bool × Pos3)),
      |a.2.1| ≤ 10000 ∧ |a.2.2.1| ≤ 10000 ∧ |a.2.2.2| ≤ 10000 := by
    intro a ha
    rw [List.mem_singleton] at ha
    subst ha
    refine ⟨?_, by norm_num, by norm_num⟩
    show |xTol| ≤ 10000
    rw [xTol, abs_of_pos (by norm_num : (0 : ℚ) < 4900000 / 52917721067)]
    norm_num
  obtain ⟨boOut, hread, -⟩ := read_writeStream RB_lawful
    [(true, ((xTol : ℚ), (0 : ℚ), (0 : ℚ)))] boZero ts0 (by decide) (by decide) hcoords
  refine ⟨_, hread, by rfl, ?_⟩
  intro q hq
  simp only [List.map_cons, List.map_nil, List.mem_singleton] at hq
  subst hq
  show ¬|readbackCoord xTol - xTol| ≤ 5 / 100000
  have h0 : roundQ (xTol * angstrom_per_bohr * 10000) = 0 := by
    apply roundQ_eq_of_bounds
    · rw [xTol, angstrom_per_bohr]
      push_cast
      norm_num
    · rw [xTol, angstrom_per_bohr]
      push_cast
      norm_num
  have hrb : readbackCoord xTol = 0 := by
    rw [readbackCoord, h0]
    norm_num
  rw [hrb, zero_sub, abs_neg, xTol,
    abs_of_pos (by norm_num : (0 : ℚ) < 4900000 / 52917721067)]
  norm_num


end MolV2000
